import Mathlib

/-!
Verification of the from-scratch neural-network training engine.

Shallow embedding conventions:
- Tensors are total functions from natural-number indices to values, together
  with explicit dimensions; all sums range over `Finset.range`.
- Exact arithmetic is used: `ℚ` for the layer/optimizer code (whose operations
  are field operations), `ℝ` for the loss code (which uses `exp`/`log`) and for
  the `max_norm` regularizer (which uses a real square root).
- `np.sqrt` (resp. `np.tanh`, `np.exp` where only used opaquely) is modelled by
  an explicit function parameter `sqrtq` (resp. `tanhq`, `expq`) when the claim
  under consideration does not depend on its value.
- Python `raise` is modelled by `Except String`; in-place ndarray mutation is
  modelled by an explicit store mapping addresses to value lists, with
  dictionaries mapping keys to addresses.  Rebinding a dictionary slot to a
  freshly allocated array allocates a fresh address; `arr op= x` updates the
  store at the existing address.
-/

namespace Engine

/-! ### src/core/utils.py : im2col / col2im -/

namespace Utils

/-- Output spatial dimension `(H + 2*pad - K) // stride + 1` (natural-number
version; it agrees with the Python integer formula whenever `K ≤ H + 2*pad`,
i.e. whenever the output dimension is positive). -/
def outDim (H K stride pad : ℕ) : ℕ :=
  (H + 2 * pad - K) / stride + 1

/-- `np.pad(x, ((0,0),(0,0),(pad,pad),(pad,pad)), mode="constant")`:
the zero-padded tensor, as a total function of padded coordinates. -/
def padded (pad H W : ℕ) (x : ℕ → ℕ → ℕ → ℕ → ℚ) (n c a b : ℕ) : ℚ :=
  if pad ≤ a ∧ a < H + pad ∧ pad ≤ b ∧ b < W + pad then
    x n c (a - pad) (b - pad)
  else 0

/-- `im2col(x, (KH,KW), stride, pad)` from `src/core/utils.py`.

The source fills `cols[n, c, i, j, oh, ow] = x_padded[n, c, i + stride*oh,
j + stride*ow]` and then reshapes via `transpose(0, 4, 5, 1, 2, 3)` to a 2D
array of shape `(N*out_h*out_w, C*KH*KW)`: row `r = (n*out_h + oh)*out_w + ow`,
column `q = (c*KH + i)*KW + j`.  Here the 2D result is a function of the row
and column index, decoding them with the inverse of that flattening. -/
def im2col (H W KH KW stride pad : ℕ) (x : ℕ → ℕ → ℕ → ℕ → ℚ) (r q : ℕ) : ℚ :=
  let oh := outDim H KH stride pad
  let ow := outDim W KW stride pad
  padded pad H W x (r / (oh * ow)) (q / (KH * KW))
    (q / KW % KH + stride * (r / ow % oh))
    (q % KW + stride * (r % ow))

/-- `col2im(cols, (N,C,H,W), (KH,KW), stride, pad)` from `src/core/utils.py`.

The source reshapes `cols` back to `cols_reshaped[n, c, i, j, oh, ow]`
(the inverse of the flattening used by `im2col`), scatter-adds each strided
slice into a zero-initialised padded buffer, and crops the padding:
`x[n,c,h,w] = x_padded[n,c,h+pad,w+pad]` where `x_padded[n,c,a,b]` is the sum
of `cols_reshaped[n,c,i,j,oh,ow]` over all `(i,oh)` with `i + stride*oh = a`
and `(j,ow)` with `j + stride*ow = b`. -/
def col2im (H W KH KW stride pad : ℕ) (cols : ℕ → ℕ → ℚ) (n c h w : ℕ) : ℚ :=
  let oh := outDim H KH stride pad
  let ow := outDim W KW stride pad
  ∑ i ∈ Finset.range KH, ∑ j ∈ Finset.range KW,
    ∑ a ∈ Finset.range oh, ∑ b ∈ Finset.range ow,
      if i + stride * a = h + pad ∧ j + stride * b = w + pad then
        cols ((n * oh + a) * ow + b) ((c * KH + i) * KW + j)
      else 0

end Utils

/-! ### src/core/losses.py : stable softmax cross-entropy -/

namespace Losses

/-- `np.max(logits, axis=1)` for one row: the row maximum (over the first `C`
entries; for `C ≥ 1` the fold below is exactly the maximum of the row).  Only
its shift-invariance is ever used. -/
noncomputable def rowMax (C : ℕ) (z : ℕ → ℝ) : ℝ :=
  ((List.range C).map z).foldl max (z 0)

/-- `_softmax_stable` from `src/core/losses.py`: subtract the row max, exponentiate,
normalise by the row sum.  One row of the `(N, C)` result. -/
noncomputable def softmaxStable (C : ℕ) (z : ℕ → ℝ) (c : ℕ) : ℝ :=
  Real.exp (z c - rowMax C z) / ∑ j ∈ Finset.range C, Real.exp (z j - rowMax C z)

/-- `softmax_cross_entropy` from `src/core/losses.py`: stable log-softmax
(`log p = z - logsumexp` after subtracting the row max), cross entropy
`-sum(y * log p)` per row, averaged over the batch. -/
noncomputable def softmaxCrossEntropy (N C : ℕ) (logits y : ℕ → ℕ → ℝ) : ℝ :=
  (∑ n ∈ Finset.range N, -(∑ c ∈ Finset.range C, y n c *
      ((logits n c - rowMax C (logits n)) -
        Real.log (∑ j ∈ Finset.range C, Real.exp (logits n j - rowMax C (logits n))))))
    / N

/-- `softmax_cross_entropy_backward` from `src/core/losses.py`:
`grad = (softmax(logits) - y) / N`. -/
noncomputable def softmaxCrossEntropyBackward (N C : ℕ) (logits y : ℕ → ℕ → ℝ)
    (n c : ℕ) : ℝ :=
  (softmaxStable C (logits n) c - y n c) / N

/-- `y` is a one-hot `(N, C)` target array. -/
def OneHot (N C : ℕ) (y : ℕ → ℕ → ℝ) : Prop :=
  ∀ n < N, ∃ t < C, ∀ c < C, y n c = if c = t then 1 else 0

/-- The logits array with entry `(n₀, c₀)` replaced by `t` (used to state the
partial-derivative property of the loss). -/
def updAt (L : ℕ → ℕ → ℝ) (n₀ c₀ : ℕ) (t : ℝ) : ℕ → ℕ → ℝ :=
  fun n c => if n = n₀ ∧ c = c₀ then t else L n c

end Losses

/-! ### src/core/optim.py : SGD and Adam over an explicit store

Arrays are lists of rationals.  The store maps addresses (naturals) to array
contents and carries an allocation counter; every live address is below the
counter.  A dictionary is a list of addresses in key order.  `arr op= x`
updates the store at the existing address; `d[k] = fresh_expr` allocates a new
address, leaving the array previously bound to `d[k]` untouched. -/

namespace Optim

/-- Contents of one ndarray. -/
abbrev Arr := List ℚ

def elemAdd (a b : Arr) : Arr := List.zipWith (· + ·) a b

def elemSub (a b : Arr) : Arr := List.zipWith (· - ·) a b

def elemMul (a b : Arr) : Arr := List.zipWith (· * ·) a b

def elemDiv (a b : Arr) : Arr := List.zipWith (· / ·) a b

/-- `c * arr` (scalar times array). -/
def smul (c : ℚ) (a : Arr) : Arr := a.map (fun x => c * x)

/-- `arr / c` (array divided by scalar). -/
def divConst (a : Arr) (c : ℚ) : Arr := a.map (fun x => x / c)

/-- `np.zeros_like(arr)`. -/
def zerosOf (a : Arr) : Arr := a.map (fun _ => 0)

/-- `np.sum(g * g)`. -/
def sumsq (a : Arr) : ℚ := (a.map (fun x => x * x)).sum

/-- The heap of ndarray objects plus an allocation counter. -/
structure Store where
  heap : ℕ → Arr
  next : ℕ

/-- In-place write to an existing array object. -/
def writeH (st : Store) (a : ℕ) (v : Arr) : Store :=
  ⟨Function.update st.heap a v, st.next⟩

/-- `{k: np.zeros_like(v) for k, v in params.items()}` (the buffer values,
which live privately inside the optimizer). -/
def zerosLike (pa : List ℕ) (st : Store) : List Arr :=
  pa.map fun p => zerosOf (st.heap p)

/-- `for k in grads: grads[k] = grads[k] + wd * params[k]` — each gradient
dictionary slot is rebound to a freshly allocated array; the arrays the slots
held before are never written. -/
def allocWd (wd : ℚ) : List ℕ → List ℕ → Store → List ℕ × Store
  | [], _, st => ([], st)
  | _ :: _, [], st => ([], st)
  | g :: gs, p :: ps, st =>
      let a := st.next
      let st1 : Store := ⟨Function.update st.heap a
        (elemAdd (st.heap g) (smul wd (st.heap p))), st.next + 1⟩
      let r := allocWd wd gs ps st1
      (a :: r.1, r.2)

/-- `total_sq = sum(float(np.sum(g*g)) for g in grads.values())`. -/
def clipTotal (ga : List ℕ) (st : Store) : ℚ :=
  (ga.map fun g => sumsq (st.heap g)).sum

/-- `for k in grads: grads[k] *= scale` (in place). -/
def scaleAll (s : ℚ) : List ℕ → Store → Store
  | [], st => st
  | g :: gs, st => scaleAll s gs (writeH st g ((st.heap g).map (fun x => x * s)))

/-- `_maybe_clip`: global-L2-norm gradient clipping.  `np.sqrt` is modelled by
the parameter `sqrtq`; `1e-12` is the epsilon stabiliser of the source. -/
def maybeClip (sqrtq : ℚ → ℚ) (clip : Option ℚ) (ga : List ℕ) (st : Store) : Store :=
  match clip with
  | none => st
  | some c =>
      let norm := sqrtq (clipTotal ga st) + 1 / 1000000000000
      if norm > c then scaleAll (c / norm) ga st else st

/-- `for k in params: params[k] -= lr * grads[k]` (plain SGD). -/
def sgdPlain (lr : ℚ) : List ℕ → List ℕ → Store → Store
  | [], _, st => st
  | _ :: _, [], st => st
  | p :: ps, g :: gs, st =>
      sgdPlain lr ps gs (writeH st p (elemSub (st.heap p) (smul lr (st.heap g))))

/-- The SGD momentum loop: `v *= mu; v += grads[k]`, then
`params[k] -= lr * (mu*v + grads[k])` under Nesterov or `params[k] -= lr * v`
otherwise.  Returns the updated velocity buffers and store. -/
def sgdMom (lr mu : ℚ) (nest : Bool) :
    List ℕ → List ℕ → List Arr → Store → List Arr × Store
  | [], _, _, st => ([], st)
  | _ :: _, [], _, st => ([], st)
  | _ :: _, _ :: _, [], st => ([], st)
  | p :: ps, g :: gs, v :: vs, st =>
      let v1 := elemAdd (smul mu v) (st.heap g)
      let upd := if nest then elemAdd (smul mu v1) (st.heap g) else v1
      let st1 := writeH st p (elemSub (st.heap p) (smul lr upd))
      let r := sgdMom lr mu nest ps gs vs st1
      (v1 :: r.1, r.2)

/-- The `SGD` optimizer state (`src/core/optim.py`). -/
structure SGDState where
  lr : ℚ
  momentum : ℚ
  nesterov : Bool
  weight_decay : ℚ
  clip_grad_norm : Option ℚ
  velocity : Option (List Arr)

/-- `SGD.step(params, grads)`: lazily initialise the velocity buffers, apply
weight decay (rebinding gradient slots), optionally clip, then update each
parameter in place.  Returns the new optimizer state, the gradient dictionary
as left by the call, and the store. -/
def sgdStep (sqrtq : ℚ → ℚ) (s : SGDState) (pa ga : List ℕ) (st : Store) :
    SGDState × List ℕ × Store :=
  let vel := s.velocity.getD (zerosLike pa st)
  let r1 := if s.weight_decay > 0 then allocWd s.weight_decay ga pa st else (ga, st)
  let ga1 := r1.1
  let st2 := maybeClip sqrtq s.clip_grad_norm ga1 r1.2
  if s.momentum = 0 then
    ({s with velocity := some vel}, ga1, sgdPlain s.lr pa ga1 st2)
  else
    let r2 := sgdMom s.lr s.momentum s.nesterov pa ga1 vel st2
    ({s with velocity := some r2.1}, ga1, r2.2)

/-- The `Adam` optimizer state (`src/core/optim.py`). -/
structure AdamState where
  lr : ℚ
  b1 : ℚ
  b2 : ℚ
  eps : ℚ
  weight_decay : ℚ
  clip_grad_norm : Option ℚ
  m : Option (List Arr)
  v : Option (List Arr)
  t : ℕ

/-- The Adam per-key loop: moment updates (the dictionary slots `self._m[k]`,
`self._v[k]` are rebound to fresh arrays), bias correction by `1 - β^t`, and
`params[k] -= lr * m_hat / (sqrt(v_hat) + eps)` in place. -/
def adamUpd (sqrtq : ℚ → ℚ) (lr b1 b2 eps : ℚ) (t : ℕ) :
    List ℕ → List ℕ → List Arr → List Arr → Store → List Arr × List Arr × Store
  | [], _, _, _, st => ([], [], st)
  | _ :: _, [], _, _, st => ([], [], st)
  | _ :: _, _ :: _, [], _, st => ([], [], st)
  | _ :: _, _ :: _, _ :: _, [], st => ([], [], st)
  | p :: ps, g :: gs, m :: ms, v :: vs, st =>
      let gA := st.heap g
      let m1 := elemAdd (smul b1 m) (smul (1 - b1) gA)
      let v1 := elemAdd (smul b2 v) (smul (1 - b2) (elemMul gA gA))
      let mhat := divConst m1 (1 - b1 ^ t)
      let vhat := divConst v1 (1 - b2 ^ t)
      let upd := elemDiv (smul lr mhat) (vhat.map (fun x => sqrtq x + eps))
      let st1 := writeH st p (elemSub (st.heap p) upd)
      let r := adamUpd sqrtq lr b1 b2 eps t ps gs ms vs st1
      (m1 :: r.1, v1 :: r.2.1, r.2.2)

/-- `Adam.step(params, grads)`: lazily initialise both moment buffers, apply
weight decay, optionally clip, increment the shared step counter once, then
run the per-key update loop. -/
def adamStep (sqrtq : ℚ → ℚ) (s : AdamState) (pa ga : List ℕ) (st : Store) :
    AdamState × List ℕ × Store :=
  let m0 := s.m.getD (zerosLike pa st)
  let v0 := s.v.getD (zerosLike pa st)
  let r1 := if s.weight_decay > 0 then allocWd s.weight_decay ga pa st else (ga, st)
  let ga1 := r1.1
  let st2 := maybeClip sqrtq s.clip_grad_norm ga1 r1.2
  let t1 := s.t + 1
  let r2 := adamUpd sqrtq s.lr s.b1 s.b2 s.eps t1 pa ga1 m0 v0 st2
  ({s with m := some r2.1, v := some r2.2.1, t := t1}, ga1, r2.2.2)

end Optim

/-! ### src/layers/ : the layer primitives

Tensors are dimension tuples plus total value functions.  Python `raise` is an
`Except.error`; the training-mode flag defaults to `true` (base `Layer`); each
`forward` first applies the optional `training` override, exactly as the
source does.  Error message strings reproduce the fixed prefix of the source
messages (the source interpolates shape values into them). -/

namespace Layers

/-- Whether a call completed without raising. -/
def isOkE {α : Type} : Except String α → Bool
  | Except.ok _ => true
  | Except.error _ => false

/-- A 4D `(N, C, H, W)` tensor. -/
structure Tensor4 where
  dims : ℕ × ℕ × ℕ × ℕ
  val : ℕ → ℕ → ℕ → ℕ → ℚ

/-- Forward cache of `Conv2D`: input shape, im2col columns, output size. -/
structure ConvCache where
  x_shape : ℕ × ℕ × ℕ × ℕ
  x_cols : ℕ → ℕ → ℚ
  out_hw : ℤ × ℤ

/-- The `Conv2D` layer (`src/layers/conv2d.py`).  The weight initialiser is a
collaborator; the weight tensor is whatever it produced. -/
structure Conv2D where
  in_channels : ℕ
  out_channels : ℕ
  KH : ℕ
  KW : ℕ
  stride : ℕ
  padding : ℕ
  use_bias : Bool
  W : ℕ → ℕ → ℕ → ℕ → ℚ
  b : ℕ → ℚ
  dW : ℕ → ℕ → ℕ → ℕ → ℚ
  db : ℕ → ℚ
  training : Bool
  cache : Option ConvCache

/-- A freshly constructed `Conv2D` (grad buffers zero, bias zeros, no cache,
training mode on). -/
def convInit (ic oc KH KW stride pad : ℕ) (bias : Bool) (W0 : ℕ → ℕ → ℕ → ℕ → ℚ) :
    Conv2D :=
  ⟨ic, oc, KH, KW, stride, pad, bias, W0, fun _ => 0, fun _ _ _ _ => 0, fun _ => 0,
    true, none⟩

/-- `Conv2D._calc_out_hw`: Python integer arithmetic (`//` is `Int.fdiv`);
a non-positive output dimension raises `ValueError`. -/
def calcOutHW (l : Conv2D) (H W : ℕ) : Except String (ℤ × ℤ) :=
  let Ho := ((H : ℤ) + 2 * l.padding - l.KH).fdiv l.stride + 1
  let Wo := ((W : ℤ) + 2 * l.padding - l.KW).fdiv l.stride + 1
  if Ho ≤ 0 ∨ Wo ≤ 0 then Except.error "Invalid output size" else Except.ok (Ho, Wo)

/-- `Conv2D.forward`: apply the training override, check the channel count,
compute the output size (raising before the `im2col` transform and before any
matrix computation when it is non-positive), then build the column matrix,
multiply by the reshaped weights, add the bias, and fill the cache.  Returns
the result (or the raised error) together with the layer as left by the call. -/
def convForward (l : Conv2D) (tr : Option Bool) (x : Tensor4) :
    Except String (ℕ → ℕ → ℕ → ℕ → ℚ) × Conv2D :=
  let l1 : Conv2D := match tr with
    | some t => {l with training := t}
    | none => l
  let N := x.dims.1
  let C := x.dims.2.1
  let H := x.dims.2.2.1
  let W := x.dims.2.2.2
  if C ≠ l.in_channels then
    (Except.error "Conv2D in_channels mismatch", l1)
  else
    match calcOutHW l H W with
    | Except.error e => (Except.error e, l1)
    | Except.ok hw =>
        let cols := Utils.im2col H W l.KH l.KW l.stride l.padding x.val
        let Wrow : ℕ → ℕ → ℚ := fun co q =>
          l.W co (q / (l.KH * l.KW)) (q / l.KW % l.KH) (q % l.KW)
        let out2 : ℕ → ℕ → ℚ := fun r co =>
          (∑ q ∈ Finset.range (l.in_channels * l.KH * l.KW), cols r q * Wrow co q)
            + (if l.use_bias then l.b co else 0)
        let HoN := hw.1.toNat
        let WoN := hw.2.toNat
        let y : ℕ → ℕ → ℕ → ℕ → ℚ := fun n co oh ow =>
          out2 ((n * HoN + oh) * WoN + ow) co
        (Except.ok y,
          {l1 with cache := some ⟨(N, C, H, W), cols, hw⟩})

/-- `Conv2D.backward`: raises when no forward cache is present; otherwise
computes `dW`, `db` and the col2im scatter-add of the column-space gradient. -/
def convBackward (l : Conv2D) (grad : ℕ → ℕ → ℕ → ℕ → ℚ) :
    Except String ((ℕ → ℕ → ℕ → ℕ → ℚ) × Conv2D) :=
  match l.cache with
  | none => Except.error "Conv2D.backward called before forward or cache cleared."
  | some c =>
      let H := c.x_shape.2.2.1
      let W := c.x_shape.2.2.2
      let HoN := c.out_hw.1.toNat
      let WoN := c.out_hw.2.toNat
      let gcols : ℕ → ℕ → ℚ := fun r co =>
        grad (r / (HoN * WoN)) co (r / WoN % HoN) (r % WoN)
      let nRows := c.x_shape.1 * HoN * WoN
      let dWnew : ℕ → ℕ → ℕ → ℕ → ℚ := fun co ci i j =>
        ∑ r ∈ Finset.range nRows, gcols r co * c.x_cols r ((ci * l.KH + i) * l.KW + j)
      let dbnew : ℕ → ℚ := fun co => ∑ r ∈ Finset.range nRows, gcols r co
      let dXcols : ℕ → ℕ → ℚ := fun r q =>
        ∑ co ∈ Finset.range l.out_channels,
          gcols r co * l.W co (q / (l.KH * l.KW)) (q / l.KW % l.KH) (q % l.KW)
      let dX := Utils.col2im H W l.KH l.KW l.stride l.padding dXcols
      Except.ok (dX,
        {l with dW := dWnew, db := if l.use_bias then dbnew else l.db})

/-- Forward cache of `BatchNorm2D`. -/
structure BNCache where
  x_centered : ℕ → ℕ → ℕ → ℕ → ℚ
  inv_std : ℕ → ℚ
  x_hat : ℕ → ℕ → ℕ → ℕ → ℚ

/-- The `BatchNorm2D` layer (`src/layers/batchnorm.py`). -/
structure BatchNorm2D where
  C : ℕ
  eps : ℚ
  momentum : ℚ
  gamma : ℕ → ℚ
  beta : ℕ → ℚ
  running_mean : ℕ → ℚ
  running_var : ℕ → ℚ
  dgamma : ℕ → ℚ
  dbeta : ℕ → ℚ
  training : Bool
  cache : Option BNCache

/-- A freshly constructed `BatchNorm2D`: `gamma` ones, `beta` zeros, running
mean zeros, running variance ones, no cache, training mode on. -/
def bnInit (C : ℕ) (eps momentum : ℚ) : BatchNorm2D :=
  ⟨C, eps, momentum, fun _ => 1, fun _ => 0, fun _ => 0, fun _ => 1,
    fun _ => 0, fun _ => 0, true, none⟩

/-- `Layer.eval()`: switch the mode flag off (cache untouched). -/
def bnEval (l : BatchNorm2D) : BatchNorm2D := {l with training := false}

/-- `BatchNorm2D.forward`: in training mode compute per-channel batch
statistics over `(N, H, W)`, normalise, update the running statistics and fill
the cache; in eval mode normalise with the running statistics and leave the
cache untouched.  `np.sqrt` is modelled by `sqrtq`. -/
def bnForward (sqrtq : ℚ → ℚ) (l : BatchNorm2D) (tr : Option Bool) (x : Tensor4) :
    Except String (ℕ → ℕ → ℕ → ℕ → ℚ) × BatchNorm2D :=
  let l1 : BatchNorm2D := match tr with
    | some t => {l with training := t}
    | none => l
  let N := x.dims.1
  let C := x.dims.2.1
  let H := x.dims.2.2.1
  let W := x.dims.2.2.2
  if C ≠ l.C then
    (Except.error "BatchNorm2D expects (N,C,H,W)", l1)
  else if l1.training then
    let cnt : ℚ := (N * H * W : ℕ)
    let mean : ℕ → ℚ := fun c =>
      (∑ n ∈ Finset.range N, ∑ h ∈ Finset.range H, ∑ w ∈ Finset.range W,
        x.val n c h w) / cnt
    let var : ℕ → ℚ := fun c =>
      (∑ n ∈ Finset.range N, ∑ h ∈ Finset.range H, ∑ w ∈ Finset.range W,
        (x.val n c h w - mean c) * (x.val n c h w - mean c)) / cnt
    let xc : ℕ → ℕ → ℕ → ℕ → ℚ := fun n c h w => x.val n c h w - mean c
    let istd : ℕ → ℚ := fun c => 1 / sqrtq (var c + l.eps)
    let xhat : ℕ → ℕ → ℕ → ℕ → ℚ := fun n c h w => xc n c h w * istd c
    (Except.ok (fun n c h w => l.gamma c * xhat n c h w + l.beta c),
      {l1 with
        running_mean := fun c =>
          l.momentum * l.running_mean c + (1 - l.momentum) * mean c,
        running_var := fun c =>
          l.momentum * l.running_var c + (1 - l.momentum) * var c,
        cache := some ⟨xc, istd, xhat⟩})
  else
    let xhat : ℕ → ℕ → ℕ → ℕ → ℚ := fun n c h w =>
      (x.val n c h w - l.running_mean c) / sqrtq (l.running_var c + l.eps)
    (Except.ok (fun n c h w => l.gamma c * xhat n c h w + l.beta c), l1)

/-- `BatchNorm2D.backward`: raises when no cache is present (the check is on
the cache fields, not on the mode flag); otherwise computes `dgamma`, `dbeta`
and the whitening-gradient formula for `dx`. -/
def bnBackward (l : BatchNorm2D) (gdims : ℕ × ℕ × ℕ × ℕ)
    (grad : ℕ → ℕ → ℕ → ℕ → ℚ) :
    Except String ((ℕ → ℕ → ℕ → ℕ → ℚ) × BatchNorm2D) :=
  match l.cache with
  | none => Except.error "BatchNorm2D.backward called before forward in training mode."
  | some c =>
      let N := gdims.1
      let H := gdims.2.2.1
      let W := gdims.2.2.2
      let cnt : ℚ := (N * H * W : ℕ)
      let dg : ℕ → ℚ := fun ch =>
        ∑ n ∈ Finset.range N, ∑ h ∈ Finset.range H, ∑ w ∈ Finset.range W,
          grad n ch h w * c.x_hat n ch h w
      let db : ℕ → ℚ := fun ch =>
        ∑ n ∈ Finset.range N, ∑ h ∈ Finset.range H, ∑ w ∈ Finset.range W,
          grad n ch h w
      let dx : ℕ → ℕ → ℕ → ℕ → ℚ := fun n ch h w =>
        (l.gamma ch * c.inv_std ch) *
          (grad n ch h w - db ch / cnt - c.x_hat n ch h w * (dg ch / cnt))
      Except.ok (dx, {l with dgamma := dg, dbeta := db})

/-- The `Dense` layer (`src/layers/dense.py`), on 2D `(N, in_features)`
inputs (the flattening of higher-rank inputs is a reshape not exercised by any
claim). -/
structure Dense where
  in_features : ℕ
  out_features : ℕ
  use_bias : Bool
  W : ℕ → ℕ → ℚ
  b : ℕ → ℚ
  dW : ℕ → ℕ → ℚ
  db : ℕ → ℚ
  training : Bool
  cache : Option ((ℕ × ℕ) × (ℕ → ℕ → ℚ))

/-- A freshly constructed `Dense` layer. -/
def denseInit (inf outf : ℕ) (bias : Bool) (W0 : ℕ → ℕ → ℚ) : Dense :=
  ⟨inf, outf, bias, W0, fun _ => 0, fun _ _ => 0, fun _ => 0, true, none⟩

/-- `Dense.forward`: `y = x @ W.T + b`; caches the input and its shape. -/
def denseForward (l : Dense) (tr : Option Bool) (dims : ℕ × ℕ) (x : ℕ → ℕ → ℚ) :
    (ℕ → ℕ → ℚ) × Dense :=
  let l1 : Dense := match tr with
    | some t => {l with training := t}
    | none => l
  ((fun n o => (∑ f ∈ Finset.range l.in_features, x n f * l.W o f)
      + (if l.use_bias then l.b o else 0)),
    {l1 with cache := some (dims, x)})

/-- `Dense.backward`: raises without a cache; otherwise
`dW = grad.T @ x`, `db = sum(grad, axis=0)`, `dx = grad @ W`. -/
def denseBackward (l : Dense) (grad : ℕ → ℕ → ℚ) :
    Except String ((ℕ → ℕ → ℚ) × Dense) :=
  match l.cache with
  | none => Except.error "Dense.backward called before forward."
  | some c =>
      let N := c.1.1
      let dWnew : ℕ → ℕ → ℚ := fun o f => ∑ n ∈ Finset.range N, grad n o * c.2 n f
      let dbnew : ℕ → ℚ := fun o => ∑ n ∈ Finset.range N, grad n o
      let dx : ℕ → ℕ → ℚ := fun n f =>
        ∑ o ∈ Finset.range l.out_features, grad n o * l.W o f
      Except.ok (dx,
        {l with dW := dWnew, db := if l.use_bias then dbnew else l.db})

/-- Maximum of the pooling window at output cell `(i, j)` (`np.max` over the
`KH × KW` window; the window is nonempty for positive kernel sizes). -/
def windowMax (x : ℕ → ℕ → ℕ → ℕ → ℚ) (n c i j KH KW S : ℕ) : ℚ :=
  ((List.range (KH * KW)).map
    (fun t => x n c (i * S + t / KW) (j * S + t % KW))).foldl max
      (x n c (i * S) (j * S))

/-- The `MaxPool2D` layer (`src/layers/pooling.py`). -/
structure MaxPool2D where
  KH : ℕ
  KW : ℕ
  S : ℕ
  training : Bool
  x_shape : Option (ℕ × ℕ × ℕ × ℕ)
  mask : Option (ℕ → ℕ → ℕ → ℕ → Bool)

/-- A freshly constructed `MaxPool2D`; `stride` defaults to the kernel
height. -/
def maxPoolInit (KH KW : ℕ) (stride : Option ℕ) : MaxPool2D :=
  ⟨KH, KW, stride.getD KH, true, none, none⟩

/-- `MaxPool2D.forward`: records the window maxima and the OR-accumulated
boolean mask of all positions attaining the maximum of some covering
window. -/
def maxPoolForward (l : MaxPool2D) (tr : Option Bool) (x : Tensor4) :
    (ℕ → ℕ → ℕ → ℕ → ℚ) × MaxPool2D :=
  let l1 : MaxPool2D := match tr with
    | some t => {l with training := t}
    | none => l
  let H := x.dims.2.2.1
  let W := x.dims.2.2.2
  let Ho := (H - l.KH) / l.S + 1
  let Wo := (W - l.KW) / l.S + 1
  let mk : ℕ → ℕ → ℕ → ℕ → Bool := fun n c a b =>
    (List.range Ho).any fun i => (List.range Wo).any fun j =>
      decide (i * l.S ≤ a) && decide (a < i * l.S + l.KH) &&
      decide (j * l.S ≤ b) && decide (b < j * l.S + l.KW) &&
      decide (x.val n c a b = windowMax x.val n c i j l.KH l.KW l.S)
  ((fun n c i j => windowMax x.val n c i j l.KH l.KW l.S),
    {l1 with x_shape := some x.dims, mask := some mk})

/-- `MaxPool2D.backward`: raises without a cache; otherwise scatters the
upstream gradient through the mask, accumulating over covering windows
(`H_out`, `W_out` taken from the gradient's shape, as in the source). -/
def maxPoolBackward (l : MaxPool2D) (gdims : ℕ × ℕ × ℕ × ℕ)
    (grad : ℕ → ℕ → ℕ → ℕ → ℚ) :
    Except String ((ℕ → ℕ → ℕ → ℕ → ℚ) × MaxPool2D) :=
  match l.x_shape, l.mask with
  | some _, some mk =>
      let Ho := gdims.2.2.1
      let Wo := gdims.2.2.2
      Except.ok ((fun n c a b =>
        ∑ i ∈ Finset.range Ho, ∑ j ∈ Finset.range Wo,
          if i * l.S ≤ a ∧ a < i * l.S + l.KH ∧ j * l.S ≤ b ∧ b < j * l.S + l.KW
              ∧ mk n c a b = true then
            grad n c i j
          else 0), l)
  | _, _ => Except.error "MaxPool2D.backward called before forward."

/-- The `AvgPool2D` layer (`src/layers/pooling.py`). -/
structure AvgPool2D where
  KH : ℕ
  KW : ℕ
  S : ℕ
  training : Bool
  x_shape : Option (ℕ × ℕ × ℕ × ℕ)

/-- A freshly constructed `AvgPool2D`. -/
def avgPoolInit (KH KW : ℕ) (stride : Option ℕ) : AvgPool2D :=
  ⟨KH, KW, stride.getD KH, true, none⟩

/-- `AvgPool2D.forward`: window means; caches the input shape. -/
def avgPoolForward (l : AvgPool2D) (tr : Option Bool) (x : Tensor4) :
    (ℕ → ℕ → ℕ → ℕ → ℚ) × AvgPool2D :=
  let l1 : AvgPool2D := match tr with
    | some t => {l with training := t}
    | none => l
  ((fun n c i j =>
      (∑ di ∈ Finset.range l.KH, ∑ dj ∈ Finset.range l.KW,
        x.val n c (i * l.S + di) (j * l.S + dj)) / (l.KH * l.KW : ℕ)),
    {l1 with x_shape := some x.dims})

/-- `AvgPool2D.backward`: raises without a cache; otherwise distributes the
gradient evenly over each window, accumulated across covering windows. -/
def avgPoolBackward (l : AvgPool2D) (gdims : ℕ × ℕ × ℕ × ℕ)
    (grad : ℕ → ℕ → ℕ → ℕ → ℚ) :
    Except String ((ℕ → ℕ → ℕ → ℕ → ℚ) × AvgPool2D) :=
  match l.x_shape with
  | none => Except.error "AvgPool2D.backward called before forward."
  | some _ =>
      let Ho := gdims.2.2.1
      let Wo := gdims.2.2.2
      Except.ok ((fun n c a b =>
        ∑ i ∈ Finset.range Ho, ∑ j ∈ Finset.range Wo,
          if i * l.S ≤ a ∧ a < i * l.S + l.KH ∧ j * l.S ≤ b ∧ b < j * l.S + l.KW then
            grad n c i j / (l.KH * l.KW : ℕ)
          else 0), l)

/-- The `ReLU` activation, elementwise over flattened indices. -/
structure ReLU where
  training : Bool
  mask : Option (ℕ → Bool)

def reluInit : ReLU := ⟨true, none⟩

/-- `ReLU.forward`: caches the positivity mask, returns `x * mask`. -/
def reluForward (l : ReLU) (tr : Option Bool) (x : ℕ → ℚ) : (ℕ → ℚ) × ReLU :=
  let l1 : ReLU := match tr with
    | some t => {l with training := t}
    | none => l
  ((fun i => if x i > 0 then x i else 0), {l1 with mask := some fun i => decide (x i > 0)})

/-- `ReLU.backward`: raises without a cached mask; otherwise `grad * mask`. -/
def reluBackward (l : ReLU) (grad : ℕ → ℚ) : Except String (ℕ → ℚ) :=
  match l.mask with
  | none => Except.error "ReLU.backward called before forward."
  | some mk => Except.ok fun i => if mk i then grad i else 0

/-- The `LeakyReLU` activation. -/
structure LeakyReLU where
  negative_slope : ℚ
  training : Bool
  xc : Option (ℕ → ℚ)

def leakyReluInit (slope : ℚ) : LeakyReLU := ⟨slope, true, none⟩

/-- `LeakyReLU.forward`: caches the input. -/
def leakyReluForward (l : LeakyReLU) (tr : Option Bool) (x : ℕ → ℚ) :
    (ℕ → ℚ) × LeakyReLU :=
  let l1 : LeakyReLU := match tr with
    | some t => {l with training := t}
    | none => l
  ((fun i => if x i > 0 then x i else l.negative_slope * x i), {l1 with xc := some x})

/-- `LeakyReLU.backward`: raises without a cache; otherwise multiplies by 1,
or by the slope where the cached input is negative. -/
def leakyReluBackward (l : LeakyReLU) (grad : ℕ → ℚ) : Except String (ℕ → ℚ) :=
  match l.xc with
  | none => Except.error "LeakyReLU.backward called before forward."
  | some x => Except.ok fun i => grad i * (if x i < 0 then l.negative_slope else 1)

/-- The `Tanh` activation; `np.tanh` is modelled by the parameter `tanhq`. -/
structure Tanh where
  training : Bool
  yc : Option (ℕ → ℚ)

def tanhInit : Tanh := ⟨true, none⟩

/-- `Tanh.forward`: caches its own output. -/
def tanhForward (tanhq : ℚ → ℚ) (l : Tanh) (tr : Option Bool) (x : ℕ → ℚ) :
    (ℕ → ℚ) × Tanh :=
  let l1 : Tanh := match tr with
    | some t => {l with training := t}
    | none => l
  ((fun i => tanhq (x i)), {l1 with yc := some fun i => tanhq (x i)})

/-- `Tanh.backward`: raises without a cache; otherwise `grad * (1 - y²)`. -/
def tanhBackward (l : Tanh) (grad : ℕ → ℚ) : Except String (ℕ → ℚ) :=
  match l.yc with
  | none => Except.error "Tanh.backward called before forward."
  | some y => Except.ok fun i => grad i * (1 - y i * y i)

/-- The `Softmax` activation over the last axis of an `(N, C)` input;
`np.exp` is modelled by the parameter `expq` and the row max by `rmax`. -/
structure Softmax where
  training : Bool
  out : Option (ℕ → ℕ → ℚ)

def softmaxInit : Softmax := ⟨true, none⟩

/-- `Softmax.forward`: max-shifted exponentials normalised per row; caches the
probabilities. -/
def softmaxForward (expq : ℚ → ℚ) (C : ℕ) (l : Softmax) (tr : Option Bool)
    (x : ℕ → ℕ → ℚ) : (ℕ → ℕ → ℚ) × Softmax :=
  let l1 : Softmax := match tr with
    | some t => {l with training := t}
    | none => l
  let rmax : ℕ → ℚ := fun n => ((List.range C).map (x n)).foldl max (x n 0)
  let y : ℕ → ℕ → ℚ := fun n c =>
    expq (x n c - rmax n) / ∑ j ∈ Finset.range C, expq (x n j - rmax n)
  (y, {l1 with out := some y})

/-- `Softmax.backward`: raises without a cache; otherwise the Jacobian-vector
product `y * (grad - sum(grad * y))`. -/
def softmaxBackward (C : ℕ) (l : Softmax) (grad : ℕ → ℕ → ℚ) :
    Except String (ℕ → ℕ → ℚ) :=
  match l.out with
  | none => Except.error "Softmax.backward called before forward."
  | some y => Except.ok fun n c =>
      y n c * (grad n c - ∑ j ∈ Finset.range C, grad n j * y n j)

/-- The `Dropout` layer (`src/layers/dropout.py`). -/
structure Dropout where
  p : ℚ
  training : Bool
  mask : Option (ℕ → Bool)

def dropoutInit (p : ℚ) : Dropout := ⟨p, true, none⟩

/-- The inverted-dropout scale `1/(1-p)` (1 when `p = 0`). -/
def dropoutScale (p : ℚ) : ℚ := if p > 0 then 1 / (1 - p) else 1

/-- `Dropout.forward`: in eval mode or with `p = 0` clears the mask and
returns the input unchanged; otherwise draws the keep mask from the supplied
uniform noise (`rng.random(size=x.shape) >= p`) and scales kept activations. -/
def dropoutForward (l : Dropout) (tr : Option Bool) (noise : ℕ → ℚ) (x : ℕ → ℚ) :
    (ℕ → ℚ) × Dropout :=
  let l1 : Dropout := match tr with
    | some t => {l with training := t}
    | none => l
  if ¬ l1.training ∨ l.p = 0 then (x, {l1 with mask := none})
  else
    let mk : ℕ → Bool := fun i => decide (noise i ≥ l.p)
    ((fun i => (if mk i then x i else 0) * dropoutScale l.p),
      {l1 with mask := some mk})

/-- `Dropout.backward`: with no cached mask this is the **identity** (no
error is raised); otherwise reapplies the mask and scale. -/
def dropoutBackward (l : Dropout) (grad : ℕ → ℚ) : Except String (ℕ → ℚ) :=
  match l.mask with
  | none => Except.ok grad
  | some mk => Except.ok fun i => (if mk i then grad i else 0) * dropoutScale l.p

end Layers

/-! ### src/core/regularizers.py : max_norm over an explicit store

Real-valued arrays, since the operation's correctness property involves the
exact square root.  The store maps addresses to array contents; the parameter
dictionary maps (lower-level) names to addresses and is *not* an output of
`max_norm`: the source mutates `params[k][...]` in place and never rebinds a
dictionary slot, so the bound objects are preserved by construction. -/

namespace Reg

/-- `name.lower()`. -/
def lowerName (name : List Char) : List Char := name.map Char.toLower

/-- Python substring containment `tok in s`. -/
def inStr (tok : List Char) : List Char → Bool
  | [] => tok.isEmpty
  | c :: rest => tok.isPrefixOf (c :: rest) || inStr tok rest

/-- The default exclusion substrings `("bias", "b", "beta", "gamma")`. -/
def defaultExclude : List (List Char) :=
  [['b', 'i', 'a', 's'], ['b'], ['b', 'e', 't', 'a'], ['g', 'a', 'm', 'm', 'a']]

/-- `any(tok in lname for tok in exclude)` on the lowercased name. -/
def excludeName (name : List Char) (exclude : List (List Char)) : Bool :=
  exclude.any fun tok => inStr tok (lowerName name)

/-- `np.linalg.norm(v)`: the L2 norm. -/
noncomputable def normL2 (v : List ℝ) : ℝ :=
  Real.sqrt ((v.map fun x => x * x).sum)

/-- The `max_norm` loop over the keys in dictionary order: skip excluded
names; when the norm exceeds `max_value` (and is positive), multiply the
array contents in place by `max_value / norm`. -/
noncomputable def maxNormGo (mv : ℝ) (exclude : List (List Char))
    (dict : List Char → ℕ) : List (List Char) → (ℕ → List ℝ) → (ℕ → List ℝ)
  | [], h => h
  | k :: ks, h =>
      maxNormGo mv exclude dict ks
        (if excludeName k exclude then h
         else if normL2 (h (dict k)) > mv ∧ normL2 (h (dict k)) > 0 then
           Function.update h (dict k)
             ((h (dict k)).map fun x => x * (mv / normL2 (h (dict k))))
         else h)

/-- `max_norm(params, max_value, exclude)` (`src/core/regularizers.py`),
returning the store after the in-place rescalings. -/
noncomputable def maxNorm (keys : List (List Char)) (dict : List Char → ℕ)
    (heap : ℕ → List ℝ) (mv : ℝ) (exclude : List (List Char)) : ℕ → List ℝ :=
  maxNormGo mv exclude dict keys heap

end Reg

/-! ### src/models/sequential.py : composite parameter keys -/

namespace Model

/-- The decimal digit character for `d < 10`. -/
def digitChar (d : ℕ) : Char := Char.ofNat (48 + d)

/-- The decimal rendering of a natural number (`f"{i}"`). -/
def natStr (n : ℕ) : List Char :=
  if n < 10 then [digitChar n]
  else natStr (n / 10) ++ [digitChar (n % 10)]
decreasing_by exact Nat.div_lt_self (by omega) (by omega)

/-- The closed set of layer kinds of the repository, with the constructor
flags that determine which parameters `params()` exposes. -/
inductive LayerKind where
  | dense (bias : Bool)
  | conv2d (bias : Bool)
  | maxPool
  | avgPool
  | batchNorm
  | dropout
  | relu
  | leakyRelu
  | tanhL
  | softmax

/-- `l.__class__.__name__` for each layer kind. -/
def className : LayerKind → List Char
  | LayerKind.dense _ => ['D', 'e', 'n', 's', 'e']
  | LayerKind.conv2d _ => ['C', 'o', 'n', 'v', '2', 'D']
  | LayerKind.maxPool => ['M', 'a', 'x', 'P', 'o', 'o', 'l', '2', 'D']
  | LayerKind.avgPool => ['A', 'v', 'g', 'P', 'o', 'o', 'l', '2', 'D']
  | LayerKind.batchNorm => ['B', 'a', 't', 'c', 'h', 'N', 'o', 'r', 'm', '2', 'D']
  | LayerKind.dropout => ['D', 'r', 'o', 'p', 'o', 'u', 't']
  | LayerKind.relu => ['R', 'e', 'L', 'U']
  | LayerKind.leakyRelu => ['L', 'e', 'a', 'k', 'y', 'R', 'e', 'L', 'U']
  | LayerKind.tanhL => ['T', 'a', 'n', 'h']
  | LayerKind.softmax => ['S', 'o', 'f', 't', 'm', 'a', 'x']

/-- The local parameter names returned by each layer's `params()`. -/
def paramNames : LayerKind → List (List Char)
  | LayerKind.dense true => [['W'], ['b']]
  | LayerKind.dense false => [['W']]
  | LayerKind.conv2d true => [['W'], ['b']]
  | LayerKind.conv2d false => [['W']]
  | LayerKind.batchNorm => [['g', 'a', 'm', 'm', 'a'], ['b', 'e', 't', 'a']]
  | _ => []

/-- The composite key `f"{i}.{l.__class__.__name__}.{k}"` of
`Sequential.params`/`Sequential.grads`. -/
def qualKey (i : ℕ) (cls pname : List Char) : List Char :=
  natStr i ++ '.' :: (cls ++ '.' :: pname)

/-- The ordered key list of the mapping built by `Sequential.params` (and
identically by `Sequential.grads`). -/
def seqKeys (ls : List LayerKind) : List (List Char) :=
  ls.enum.flatMap fun p => (paramNames p.2).map fun k => qualKey p.1 (className p.2) k

end Model

end Engine

namespace Engine

/-! ### Generic finite-sum reindexing lemmas used for the adjoint identity -/

theorem sum_range_mul_split (a b : ℕ) (f : ℕ → ℚ) :
    ∑ r ∈ Finset.range (a * b), f r
      = ∑ i ∈ Finset.range a, ∑ j ∈ Finset.range b, f (i * b + j) := by
  induction a with
  | zero => simp
  | succ a ih =>
      rw [Nat.succ_mul, Finset.sum_range_add, ih, Finset.sum_range_succ]

theorem decode_div (n oh a : ℕ) (ha : a < oh) : (n * oh + a) / oh = n := by
  have hoh : 0 < oh := Nat.lt_of_le_of_lt (Nat.zero_le a) ha
  rw [Nat.add_comm, Nat.mul_comm, Nat.add_mul_div_left _ _ hoh, Nat.div_eq_of_lt ha,
    Nat.zero_add]

theorem decode_mod (n oh a : ℕ) (ha : a < oh) : (n * oh + a) % oh = a := by
  rw [Nat.add_comm, Nat.mul_comm, Nat.add_mul_mod_self_left, Nat.mod_eq_of_lt ha]

theorem decode_div2 (n oh ow a b : ℕ) (ha : a < oh) (hb : b < ow) :
    ((n * oh + a) * ow + b) / (oh * ow) = n := by
  have how : 0 < ow := Nat.lt_of_le_of_lt (Nat.zero_le b) hb
  have : (n * oh + a) * ow + b = n * (oh * ow) + (a * ow + b) := by ring
  rw [this]
  have hlt : a * ow + b < oh * ow := by
    calc a * ow + b < a * ow + ow := by omega
    _ = (a + 1) * ow := by ring
    _ ≤ oh * ow := Nat.mul_le_mul_right ow ha
  exact decode_div n (oh * ow) (a * ow + b) hlt

theorem sum_ite_eq_shift (H pad A : ℕ) (g : ℕ → ℚ) :
    (∑ h ∈ Finset.range H, if A = h + pad then g h else 0)
      = if pad ≤ A ∧ A < H + pad then g (A - pad) else 0 := by
  by_cases hc : pad ≤ A ∧ A < H + pad
  · rw [if_pos hc]
    have hmem : A - pad ∈ Finset.range H := Finset.mem_range.mpr (by omega)
    rw [Finset.sum_eq_single_of_mem (A - pad) hmem]
    · rw [if_pos (by omega)]
    · intro h _ hne
      exact if_neg (by omega)
  · rw [if_neg hc]
    refine Finset.sum_eq_zero fun h hh => ?_
    have hh' := Finset.mem_range.mp hh
    exact if_neg (by omega)

theorem sum_comm3 (A B C : Finset ℕ) (g : ℕ → ℕ → ℕ → ℚ) :
    (∑ a ∈ A, ∑ b ∈ B, ∑ c ∈ C, g a b c)
      = ∑ c ∈ C, ∑ a ∈ A, ∑ b ∈ B, g a b c := by
  calc (∑ a ∈ A, ∑ b ∈ B, ∑ c ∈ C, g a b c)
      = ∑ a ∈ A, ∑ c ∈ C, ∑ b ∈ B, g a b c :=
        Finset.sum_congr rfl fun a _ => Finset.sum_comm
    _ = ∑ c ∈ C, ∑ a ∈ A, ∑ b ∈ B, g a b c := Finset.sum_comm

theorem double_collapse (H W pad A B : ℕ) (F : ℕ → ℕ → ℚ) :
    (∑ h ∈ Finset.range H, ∑ w ∈ Finset.range W,
        if A = h + pad ∧ B = w + pad then F h w else 0)
      = if pad ≤ A ∧ A < H + pad ∧ pad ≤ B ∧ B < W + pad then
          F (A - pad) (B - pad)
        else 0 := by
  have inner : ∀ h, (∑ w ∈ Finset.range W,
      if A = h + pad ∧ B = w + pad then F h w else 0)
      = if A = h + pad then
          (if pad ≤ B ∧ B < W + pad then F h (B - pad) else 0)
        else 0 := by
    intro h
    by_cases hA : A = h + pad
    · rw [if_pos hA, ← sum_ite_eq_shift W pad B (F h)]
      exact Finset.sum_congr rfl fun w _ => by simp [hA]
    · rw [if_neg hA]
      exact Finset.sum_eq_zero fun w _ => if_neg (by tauto)
  rw [Finset.sum_congr rfl fun h _ => inner h,
    sum_ite_eq_shift H pad A (fun h => if pad ≤ B ∧ B < W + pad then F h (B - pad) else 0)]
  by_cases hA : pad ≤ A ∧ A < H + pad
  · rw [if_pos hA]
    by_cases hB : pad ≤ B ∧ B < W + pad
    · rw [if_pos hB, if_pos (by tauto)]
    · rw [if_neg hB, if_neg (by tauto)]
  · rw [if_neg hA, if_neg (by tauto)]

/-- C1: for every 4D tensor `x` of shape `(N,C,H,W)`, kernel `(KH,KW)`, stride
`≥ 1` and padding yielding positive output dimensions, and every column tensor
`c` of shape `(N*out_h*out_w, C*KH*KW)`, the adjoint identity
`sum(im2col(x) * c) = sum(x * col2im(c, x.shape))` holds, sums and products
taken elementwise over all entries. -/
theorem im2col_col2im_adjoint (Nn C H W KH KW stride pad : ℕ)
    (x : ℕ → ℕ → ℕ → ℕ → ℚ) (cols : ℕ → ℕ → ℚ)
    (hstride : 1 ≤ stride) (hKH : KH ≤ H + 2 * pad) (hKW : KW ≤ W + 2 * pad) :
    (∑ r ∈ Finset.range (Nn * Utils.outDim H KH stride pad * Utils.outDim W KW stride pad),
      ∑ q ∈ Finset.range (C * KH * KW),
        Utils.im2col H W KH KW stride pad x r q * cols r q)
    = ∑ n ∈ Finset.range Nn, ∑ c ∈ Finset.range C,
        ∑ h ∈ Finset.range H, ∑ w ∈ Finset.range W,
          x n c h w * Utils.col2im H W KH KW stride pad cols n c h w := by
  set oh := Utils.outDim H KH stride pad with hoh
  set ow := Utils.outDim W KW stride pad with how
  have lhs_eq :
      (∑ r ∈ Finset.range (Nn * oh * ow), ∑ q ∈ Finset.range (C * KH * KW),
        Utils.im2col H W KH KW stride pad x r q * cols r q)
      = ∑ n ∈ Finset.range Nn, ∑ a ∈ Finset.range oh, ∑ b ∈ Finset.range ow,
          ∑ c ∈ Finset.range C, ∑ i ∈ Finset.range KH, ∑ j ∈ Finset.range KW,
            Utils.padded pad H W x n c (i + stride * a) (j + stride * b)
              * cols ((n * oh + a) * ow + b) ((c * KH + i) * KW + j) := by
    simp only [sum_range_mul_split]
    refine Finset.sum_congr rfl fun n _ => Finset.sum_congr rfl fun a ha =>
      Finset.sum_congr rfl fun b hb => Finset.sum_congr rfl fun c _ =>
      Finset.sum_congr rfl fun i hi => Finset.sum_congr rfl fun j hj => ?_
    have ha' := Finset.mem_range.mp ha
    have hb' := Finset.mem_range.mp hb
    have hi' := Finset.mem_range.mp hi
    have hj' := Finset.mem_range.mp hj
    simp only [Utils.im2col, ← hoh, ← how]
    rw [decode_div2 n oh ow a b ha' hb', decode_div2 c KH KW i j hi' hj',
      decode_div (n * oh + a) ow b hb', decode_mod n oh a ha',
      decode_mod (n * oh + a) ow b hb', decode_div (c * KH + i) KW j hj',
      decode_mod c KH i hi', decode_mod (c * KH + i) KW j hj']
  rw [lhs_eq]
  have rhs_eq : ∀ n c,
      (∑ h ∈ Finset.range H, ∑ w ∈ Finset.range W,
        x n c h w * Utils.col2im H W KH KW stride pad cols n c h w)
      = ∑ i ∈ Finset.range KH, ∑ j ∈ Finset.range KW,
          ∑ a ∈ Finset.range oh, ∑ b ∈ Finset.range ow,
            Utils.padded pad H W x n c (i + stride * a) (j + stride * b)
              * cols ((n * oh + a) * ow + b) ((c * KH + i) * KW + j) := by
    intro n c
    simp only [Utils.col2im, ← hoh, ← how, Finset.mul_sum, mul_ite, mul_zero]
    rw [sum_comm3 (Finset.range H) (Finset.range W) (Finset.range KH)]
    refine Finset.sum_congr rfl fun i _ => ?_
    rw [sum_comm3 (Finset.range H) (Finset.range W) (Finset.range KW)]
    refine Finset.sum_congr rfl fun j _ => ?_
    rw [sum_comm3 (Finset.range H) (Finset.range W) (Finset.range oh)]
    refine Finset.sum_congr rfl fun a _ => ?_
    rw [sum_comm3 (Finset.range H) (Finset.range W) (Finset.range ow)]
    refine Finset.sum_congr rfl fun b _ => ?_
    rw [double_collapse H W pad (i + stride * a) (j + stride * b)]
    by_cases hc : pad ≤ i + stride * a ∧ i + stride * a < H + pad ∧
        pad ≤ j + stride * b ∧ j + stride * b < W + pad
    · rw [if_pos hc]
      simp [Utils.padded, hc.1, hc.2.1, hc.2.2.1, hc.2.2.2]
    · rw [if_neg hc]
      rw [Utils.padded, if_neg hc, zero_mul]
  rw [Finset.sum_congr rfl fun n _ => Finset.sum_congr rfl fun c _ => rhs_eq n c]
  refine Finset.sum_congr rfl fun n _ => ?_
  rw [sum_comm3 (Finset.range oh) (Finset.range ow) (Finset.range C)]
  refine Finset.sum_congr rfl fun c _ => ?_
  rw [sum_comm3 (Finset.range oh) (Finset.range ow) (Finset.range KH)]
  refine Finset.sum_congr rfl fun i _ => ?_
  rw [sum_comm3 (Finset.range oh) (Finset.range ow) (Finset.range KW)]

/-- Witness for C1 at a concrete instance: `N=C=1`, `H=W=2`, kernel `2×2`,
stride `1`, padding `0`. -/
theorem im2col_col2im_adjoint_witness :
    (1 ≤ 1 ∧ 2 ≤ 2 + 2 * 0) ∧
    ((∑ r ∈ Finset.range (1 * Utils.outDim 2 2 1 0 * Utils.outDim 2 2 1 0),
      ∑ q ∈ Finset.range (1 * 2 * 2),
        Utils.im2col 2 2 2 2 1 0 (fun n c h w => (n + 2 * c + 3 * h + 5 * w : ℚ))
          r q * ((r + 7 * q : ℚ) + 1))
    = ∑ n ∈ Finset.range 1, ∑ c ∈ Finset.range 1,
        ∑ h ∈ Finset.range 2, ∑ w ∈ Finset.range 2,
          (fun n c h w => (n + 2 * c + 3 * h + 5 * w : ℚ)) n c h w *
            Utils.col2im 2 2 2 2 1 0 (fun r q => (r + 7 * q : ℚ) + 1) n c h w) :=
  ⟨⟨le_refl 1, by norm_num⟩,
    im2col_col2im_adjoint 1 1 2 2 2 2 1 0
      (fun n c h w => (n + 2 * c + 3 * h + 5 * w : ℚ))
      (fun r q => (r + 7 * q : ℚ) + 1) (le_refl 1) (by norm_num) (by norm_num)⟩

/-! ### Lemmas for the softmax cross-entropy claims -/

namespace Losses

theorem sumExp_pos (C : ℕ) (hC : 0 < C) (z : ℕ → ℝ) :
    0 < ∑ j ∈ Finset.range C, Real.exp (z j) :=
  Finset.sum_pos (fun j _ => Real.exp_pos (z j))
    (Finset.nonempty_range_iff.mpr (by omega))

theorem sumExp_shift (C : ℕ) (z : ℕ → ℝ) (M : ℝ) :
    (∑ j ∈ Finset.range C, Real.exp (z j - M))
      = (∑ j ∈ Finset.range C, Real.exp (z j)) * Real.exp (-M) := by
  rw [Finset.sum_mul]
  exact Finset.sum_congr rfl fun j _ => by rw [sub_eq_add_neg, Real.exp_add]

theorem logSoftmax_shift (C : ℕ) (hC : 0 < C) (z : ℕ → ℝ) (M : ℝ) (c : ℕ) :
    (z c - M) - Real.log (∑ j ∈ Finset.range C, Real.exp (z j - M))
      = z c - Real.log (∑ j ∈ Finset.range C, Real.exp (z j)) := by
  rw [sumExp_shift C z M,
    Real.log_mul (ne_of_gt (sumExp_pos C hC z)) (Real.exp_ne_zero (-M)),
    Real.log_exp]
  ring

theorem softmaxStable_eq (C : ℕ) (hC : 0 < C) (z : ℕ → ℝ) (c : ℕ) :
    softmaxStable C z c
      = Real.exp (z c) / ∑ j ∈ Finset.range C, Real.exp (z j) := by
  rw [softmaxStable, sumExp_shift C z (rowMax C z), sub_eq_add_neg, Real.exp_add,
    mul_div_mul_right _ _ (Real.exp_ne_zero (-(rowMax C z)))]

theorem softmaxCrossEntropy_eq (N C : ℕ) (hC : 0 < C) (logits y : ℕ → ℕ → ℝ) :
    softmaxCrossEntropy N C logits y
      = (∑ n ∈ Finset.range N, -(∑ c ∈ Finset.range C, y n c *
          (logits n c - Real.log (∑ j ∈ Finset.range C, Real.exp (logits n j)))))
        / N := by
  rw [softmaxCrossEntropy]
  congr 1
  refine Finset.sum_congr rfl fun n _ => congrArg Neg.neg ?_
  exact Finset.sum_congr rfl fun c _ => by
    rw [logSoftmax_shift C hC (logits n) (rowMax C (logits n)) c]

/-- Derivative of one row's cross-entropy term with respect to the `c₀`-th
logit of that row, when the targets of the row sum to `1`. -/
theorem rowCE_hasDerivAt (C : ℕ) (hC : 0 < C) (c₀ : ℕ) (hc : c₀ < C)
    (yr zr : ℕ → ℝ) (hsum : ∑ c ∈ Finset.range C, yr c = 1) :
    HasDerivAt (fun t => -(∑ c ∈ Finset.range C, yr c *
        ((if c = c₀ then t else zr c) -
          Real.log (∑ j ∈ Finset.range C, Real.exp (if j = c₀ then t else zr j)))))
      (Real.exp (zr c₀) / (∑ j ∈ Finset.range C, Real.exp (zr j)) - yr c₀)
      (zr c₀) := by
  set t₀ := zr c₀ with ht₀
  set S := ∑ j ∈ Finset.range C, Real.exp (zr j) with hSdef
  have hSval : (∑ j ∈ Finset.range C, Real.exp (if j = c₀ then t₀ else zr j)) = S := by
    rw [hSdef]
    refine Finset.sum_congr rfl fun j _ => ?_
    by_cases hj : j = c₀
    · rw [if_pos hj, ht₀, hj]
    · rw [if_neg hj]
  have hSpos : 0 < S := sumExp_pos C hC zr
  have hS : HasDerivAt
      (fun t => ∑ j ∈ Finset.range C, Real.exp (if j = c₀ then t else zr j))
      (Real.exp t₀) t₀ := by
    have hsum' : (∑ j ∈ Finset.range C,
        (if j = c₀ then Real.exp t₀ else 0)) = Real.exp t₀ := by
      rw [Finset.sum_ite_eq' (Finset.range C) c₀ (fun _ => Real.exp t₀),
        if_pos (Finset.mem_range.mpr hc)]
    rw [← hsum']
    refine HasDerivAt.sum fun j _ => ?_
    by_cases hj : j = c₀
    · simp only [if_pos hj]
      exact Real.hasDerivAt_exp t₀
    · simp only [if_neg hj]
      exact hasDerivAt_const t₀ _
  have hlog : HasDerivAt
      (fun t => Real.log (∑ j ∈ Finset.range C, Real.exp (if j = c₀ then t else zr j)))
      (Real.exp t₀ / S) t₀ := by
    have := hS.log (by rw [hSval]; exact ne_of_gt hSpos)
    rwa [hSval] at this
  have hterm : ∀ c ∈ Finset.range C, HasDerivAt
      (fun t => yr c * ((if c = c₀ then t else zr c) -
        Real.log (∑ j ∈ Finset.range C, Real.exp (if j = c₀ then t else zr j))))
      (yr c * ((if c = c₀ then (1 : ℝ) else 0) - Real.exp t₀ / S)) t₀ := by
    intro c _
    have h1 : HasDerivAt (fun t : ℝ => if c = c₀ then t else zr c)
        (if c = c₀ then (1 : ℝ) else 0) t₀ := by
      by_cases hcc : c = c₀
      · simp only [if_pos hcc]
        exact hasDerivAt_id t₀
      · simp only [if_neg hcc]
        exact hasDerivAt_const t₀ _
    exact (h1.sub hlog).const_mul (yr c)
  have hval : -(∑ c ∈ Finset.range C,
      yr c * ((if c = c₀ then (1 : ℝ) else 0) - Real.exp t₀ / S))
      = Real.exp t₀ / S - yr c₀ := by
    have h2 : (∑ c ∈ Finset.range C,
        yr c * ((if c = c₀ then (1 : ℝ) else 0) - Real.exp t₀ / S))
        = (∑ c ∈ Finset.range C, (if c = c₀ then yr c else 0))
          - (∑ c ∈ Finset.range C, yr c) * (Real.exp t₀ / S) := by
      have hpt : ∀ c, yr c * ((if c = c₀ then (1 : ℝ) else 0) - Real.exp t₀ / S)
          = (if c = c₀ then yr c else 0) - yr c * (Real.exp t₀ / S) := by
        intro c
        by_cases hcc : c = c₀
        · rw [if_pos hcc, if_pos hcc]; ring
        · rw [if_neg hcc, if_neg hcc]; ring
      rw [Finset.sum_congr rfl fun c _ => hpt c, Finset.sum_sub_distrib,
        ← Finset.sum_mul]
    rw [h2, Finset.sum_ite_eq' (Finset.range C) c₀ yr,
      if_pos (Finset.mem_range.mpr hc), hsum, one_mul]
    ring
  have := (HasDerivAt.sum hterm).neg
  rw [hval] at this
  rw [ht₀]
  exact this

/-- C2: `softmax_cross_entropy_backward` returns `(softmax(logits) - y)/N`
elementwise (with `softmax` the row-wise max-shifted softmax of the code), and
this value is the partial derivative of the batch-mean negative log-likelihood
`softmax_cross_entropy` with respect to the logit at `(n₀, c₀)`, for one-hot
targets. -/
theorem softmaxCrossEntropyBackward_correct (N C : ℕ) (logits y : ℕ → ℕ → ℝ)
    (n₀ c₀ : ℕ) (hn : n₀ < N) (hc : c₀ < C) (hy : Losses.OneHot N C y) :
    Losses.softmaxCrossEntropyBackward N C logits y n₀ c₀
        = (Losses.softmaxStable C (logits n₀) c₀ - y n₀ c₀) / N
    ∧ HasDerivAt
        (fun t => Losses.softmaxCrossEntropy N C (Losses.updAt logits n₀ c₀ t) y)
        (Losses.softmaxCrossEntropyBackward N C logits y n₀ c₀)
        (logits n₀ c₀) := by
  have hC : 0 < C := Nat.lt_of_le_of_lt (Nat.zero_le c₀) hc
  refine ⟨rfl, ?_⟩
  have hfun : (fun t => Losses.softmaxCrossEntropy N C (Losses.updAt logits n₀ c₀ t) y)
      = fun t => (∑ n ∈ Finset.range N, -(∑ c ∈ Finset.range C, y n c *
          (Losses.updAt logits n₀ c₀ t n c -
            Real.log (∑ j ∈ Finset.range C,
              Real.exp (Losses.updAt logits n₀ c₀ t n j))))) / N := by
    funext t
    exact Losses.softmaxCrossEntropy_eq N C hC (Losses.updAt logits n₀ c₀ t) y
  rw [hfun]
  set S := ∑ j ∈ Finset.range C, Real.exp (logits n₀ j) with hSdef
  set d := Real.exp (logits n₀ c₀) / S - y n₀ c₀ with hd
  have hrow : ∑ c ∈ Finset.range C, y n₀ c = 1 := by
    obtain ⟨t, ht, hyt⟩ := hy n₀ hn
    rw [Finset.sum_congr rfl fun c hcm => hyt c (Finset.mem_range.mp hcm)]
    rw [Finset.sum_ite_eq' (Finset.range C) t (fun _ => (1 : ℝ)),
      if_pos (Finset.mem_range.mpr ht)]
  have hinner : HasDerivAt
      (fun t => ∑ n ∈ Finset.range N, -(∑ c ∈ Finset.range C, y n c *
          (Losses.updAt logits n₀ c₀ t n c -
            Real.log (∑ j ∈ Finset.range C,
              Real.exp (Losses.updAt logits n₀ c₀ t n j)))))
      d (logits n₀ c₀) := by
    have hval : (∑ n ∈ Finset.range N, if n = n₀ then d else 0) = d := by
      rw [Finset.sum_ite_eq' (Finset.range N) n₀ (fun _ => d),
        if_pos (Finset.mem_range.mpr hn)]
    rw [← hval]
    refine HasDerivAt.sum fun n _ => ?_
    by_cases hnn : n = n₀
    · subst hnn
      have heq : (fun t => -(∑ c ∈ Finset.range C, y n c *
            (Losses.updAt logits n c₀ t n c -
              Real.log (∑ j ∈ Finset.range C,
                Real.exp (Losses.updAt logits n c₀ t n j)))))
          = fun t => -(∑ c ∈ Finset.range C, y n c *
            ((if c = c₀ then t else logits n c) -
              Real.log (∑ j ∈ Finset.range C,
                Real.exp (if j = c₀ then t else logits n j)))) := by
        funext t
        simp only [Losses.updAt, true_and]
      rw [heq, if_pos rfl]
      exact Losses.rowCE_hasDerivAt C hC c₀ hc (y n) (logits n) hrow
    · have heq : (fun t => -(∑ c ∈ Finset.range C, y n c *
            (Losses.updAt logits n₀ c₀ t n c -
              Real.log (∑ j ∈ Finset.range C,
                Real.exp (Losses.updAt logits n₀ c₀ t n j)))))
          = fun _ : ℝ => -(∑ c ∈ Finset.range C, y n c *
            (logits n c -
              Real.log (∑ j ∈ Finset.range C, Real.exp (logits n j)))) := by
        funext t
        simp [Losses.updAt, hnn]
      rw [heq, if_neg hnn]
      exact hasDerivAt_const _ _
  have hfinal := hinner.div_const (N : ℝ)
  have hdval : d / (N : ℝ)
      = Losses.softmaxCrossEntropyBackward N C logits y n₀ c₀ := by
    rw [hd, Losses.softmaxCrossEntropyBackward,
      Losses.softmaxStable_eq C hC (logits n₀) c₀, hSdef]
  rwa [hdval] at hfinal

/-- Witness for C2 at `N = 1`, `C = 2`, concrete logits and one-hot target. -/
theorem softmaxCrossEntropyBackward_correct_witness :
    ((0 : ℕ) < 1 ∧ (0 : ℕ) < 2 ∧
      Losses.OneHot 1 2 (fun (_ c : ℕ) => if c = 0 then (1 : ℝ) else 0)) ∧
    (Losses.softmaxCrossEntropyBackward 1 2 (fun (_ c : ℕ) => (c : ℝ))
          (fun (_ c : ℕ) => if c = 0 then (1 : ℝ) else 0) 0 0
        = (Losses.softmaxStable 2 (fun c : ℕ => (c : ℝ)) 0 - 1) / 1
    ∧ HasDerivAt
        (fun t => Losses.softmaxCrossEntropy 1 2
          (Losses.updAt (fun (_ c : ℕ) => (c : ℝ)) 0 0 t)
          (fun (_ c : ℕ) => if c = 0 then (1 : ℝ) else 0))
        (Losses.softmaxCrossEntropyBackward 1 2 (fun (_ c : ℕ) => (c : ℝ))
          (fun (_ c : ℕ) => if c = 0 then (1 : ℝ) else 0) 0 0)
        ((0 : ℕ) : ℝ)) := by
  have hoh : Losses.OneHot 1 2 (fun (_ c : ℕ) => if c = 0 then (1 : ℝ) else 0) :=
    fun n _ => ⟨0, by omega, fun c _ => rfl⟩
  have h := softmaxCrossEntropyBackward_correct 1 2 (fun (_ c : ℕ) => (c : ℝ))
    (fun (_ c : ℕ) => if c = 0 then (1 : ℝ) else 0) 0 0 (by omega) (by omega) hoh
  refine ⟨⟨by omega, by omega, hoh⟩, ?_, h.2⟩
  have h1 := h.1
  simpa using h1

end Losses

/-! ### Lemmas for the optimizer claims -/

namespace Optim

theorem getD_mem {α : Type} (d : α) :
    ∀ (l : List α) (i : ℕ), i < l.length → l.getD i d ∈ l
  | x :: xs, 0, _ => List.mem_cons_self x xs
  | x :: xs, i + 1, h =>
      List.mem_cons_of_mem x (getD_mem d xs i (Nat.lt_of_succ_lt_succ h))

theorem sgdPlain_frame (lr : ℚ) :
    ∀ (pa ga : List ℕ) (st : Store) (a : ℕ), a ∉ pa →
      (sgdPlain lr pa ga st).heap a = st.heap a := by
  intro pa
  induction pa with
  | nil => intro ga st a _; rfl
  | cons p ps ih =>
      intro ga st a ha
      cases ga with
      | nil => rfl
      | cons g gs =>
          have hap : a ≠ p := fun h => ha (h ▸ List.mem_cons_self p ps)
          have has : a ∉ ps := fun h => ha (List.mem_cons_of_mem p h)
          simp only [sgdPlain]
          rw [ih gs _ a has]
          simp [writeH, Function.update_noteq hap]

theorem sgdPlain_at (lr : ℚ) :
    ∀ (pa ga : List ℕ) (st : Store), pa.Nodup → (∀ a ∈ pa, a ∉ ga) →
      pa.length = ga.length → ∀ i < pa.length,
      (sgdPlain lr pa ga st).heap (pa.getD i 0)
        = elemSub (st.heap (pa.getD i 0)) (smul lr (st.heap (ga.getD i 0))) := by
  intro pa
  induction pa with
  | nil => intro ga st _ _ _ i hi; exact absurd hi (Nat.not_lt_zero i)
  | cons p ps ih =>
      intro ga st hnd hdisj hlen i hi
      cases ga with
      | nil => exact absurd hlen (by simp)
      | cons g gs =>
          have hpns : p ∉ ps := (List.nodup_cons.mp hnd).1
          have hpgs : p ∉ gs := fun h =>
            hdisj p (List.mem_cons_self p ps) (List.mem_cons_of_mem g h)
          simp only [sgdPlain]
          cases i with
          | zero =>
              simp only [List.getD_cons_zero]
              rw [sgdPlain_frame lr ps gs _ p hpns]
              simp [writeH, Function.update_same]
          | succ i =>
              have hi' : i < ps.length := Nat.lt_of_succ_lt_succ hi
              have hlen' : ps.length = gs.length := by simpa using hlen
              simp only [List.getD_cons_succ]
              rw [ih gs _ (List.nodup_cons.mp hnd).2
                (fun a hams => fun hag =>
                  hdisj a (List.mem_cons_of_mem p hams) (List.mem_cons_of_mem g hag))
                hlen' i hi']
              have h1 : ps.getD i 0 ≠ p := fun h => hpns (h ▸ getD_mem 0 ps i hi')
              have h2 : gs.getD i 0 ≠ p := fun h =>
                hpgs (h ▸ getD_mem 0 gs i (hlen' ▸ hi'))
              simp only [writeH]
              rw [Function.update_noteq h1, Function.update_noteq h2]

theorem sgdMom_frame (lr mu : ℚ) (nest : Bool) :
    ∀ (pa ga : List ℕ) (vs : List Arr) (st : Store) (a : ℕ), a ∉ pa →
      (sgdMom lr mu nest pa ga vs st).2.heap a = st.heap a := by
  intro pa
  induction pa with
  | nil => intro ga vs st a _; rfl
  | cons p ps ih =>
      intro ga vs st a ha
      cases ga with
      | nil => rfl
      | cons g gs =>
          cases vs with
          | nil => rfl
          | cons v vrest =>
              have hap : a ≠ p := fun h => ha (h ▸ List.mem_cons_self p ps)
              have has : a ∉ ps := fun h => ha (List.mem_cons_of_mem p h)
              simp only [sgdMom]
              rw [ih gs vrest _ a has]
              simp [writeH, Function.update_noteq hap]

theorem sgdMom_len (lr mu : ℚ) (nest : Bool) :
    ∀ (pa ga : List ℕ) (vs : List Arr) (st : Store),
      pa.length = ga.length → pa.length = vs.length →
      (sgdMom lr mu nest pa ga vs st).1.length = pa.length := by
  intro pa
  induction pa with
  | nil => intro ga vs st _ _; rfl
  | cons p ps ih =>
      intro ga vs st hlen hvlen
      cases ga with
      | nil => exact absurd hlen (by simp)
      | cons g gs =>
          cases vs with
          | nil => exact absurd hvlen (by simp)
          | cons v vrest =>
              simp only [sgdMom, List.length_cons]
              rw [ih gs vrest _ (by simpa using hlen) (by simpa using hvlen)]

theorem sgdMom_at (lr mu : ℚ) (nest : Bool) :
    ∀ (pa ga : List ℕ) (vs : List Arr) (st : Store), pa.Nodup →
      (∀ a ∈ pa, a ∉ ga) → pa.length = ga.length → pa.length = vs.length →
      ∀ i < pa.length,
      ((sgdMom lr mu nest pa ga vs st).1.getD i []
          = elemAdd (smul mu (vs.getD i [])) (st.heap (ga.getD i 0)))
      ∧ (sgdMom lr mu nest pa ga vs st).2.heap (pa.getD i 0)
          = elemSub (st.heap (pa.getD i 0)) (smul lr
              (if nest then
                elemAdd (smul mu (elemAdd (smul mu (vs.getD i []))
                  (st.heap (ga.getD i 0)))) (st.heap (ga.getD i 0))
              else elemAdd (smul mu (vs.getD i [])) (st.heap (ga.getD i 0)))) := by
  intro pa
  induction pa with
  | nil => intro ga vs st _ _ _ _ i hi; exact absurd hi (Nat.not_lt_zero i)
  | cons p ps ih =>
      intro ga vs st hnd hdisj hlen hvlen i hi
      cases ga with
      | nil => exact absurd hlen (by simp)
      | cons g gs =>
          cases vs with
          | nil => exact absurd hvlen (by simp)
          | cons v vrest =>
              have hpns : p ∉ ps := (List.nodup_cons.mp hnd).1
              have hpgs : p ∉ gs := fun h =>
                hdisj p (List.mem_cons_self p ps) (List.mem_cons_of_mem g h)
              cases i with
              | zero =>
                  refine ⟨by simp [sgdMom], ?_⟩
                  simp only [sgdMom, List.getD_cons_zero]
                  rw [sgdMom_frame lr mu nest ps gs vrest _ p hpns]
                  simp [writeH, Function.update_same]
              | succ i =>
                  have hi' : i < ps.length := Nat.lt_of_succ_lt_succ hi
                  have hlen' : ps.length = gs.length := by simpa using hlen
                  have hvlen' : ps.length = vrest.length := by simpa using hvlen
                  simp only [sgdMom, List.getD_cons_succ]
                  have hrec := ih gs vrest
                    (writeH st p (elemSub (st.heap p) (smul lr
                      (if nest then
                        elemAdd (smul mu (elemAdd (smul mu v) (st.heap g))) (st.heap g)
                      else elemAdd (smul mu v) (st.heap g)))))
                    (List.nodup_cons.mp hnd).2
                    (fun a hams => fun hag =>
                      hdisj a (List.mem_cons_of_mem p hams) (List.mem_cons_of_mem g hag))
                    hlen' hvlen' i hi'
                  have h1 : ps.getD i 0 ≠ p := fun h => hpns (h ▸ getD_mem 0 ps i hi')
                  have h2 : gs.getD i 0 ≠ p := fun h =>
                    hpgs (h ▸ getD_mem 0 gs i (hlen' ▸ hi'))
                  constructor
                  · rw [hrec.1]
                    simp only [writeH]
                    rw [Function.update_noteq h2]
                  · rw [hrec.2]
                    simp only [writeH]
                    rw [Function.update_noteq h1, Function.update_noteq h2]

/-- C3: with zero weight decay and no clipping, `SGD.step` updates each
`params[k]` to `params[k] - lr*grads[k]` when momentum is zero; with positive
momentum it first sets `v[k] := momentum*v[k] + grads[k]` (velocity buffers
initialised to zeros on the first call) and then performs
`params[k] -= lr*v[k]`, or `params[k] -= lr*(momentum*v[k] + grads[k])` under
Nesterov.  The gradient dictionary is left bound to the caller's arrays. -/
theorem sgd_step_spec (sqrtq : ℚ → ℚ) (s : SGDState) (pa ga : List ℕ)
    (st : Store) (v0 : List Arr) (hv0 : s.velocity.getD (zerosLike pa st) = v0)
    (hwd : s.weight_decay = 0) (hclip : s.clip_grad_norm = none)
    (hlen : pa.length = ga.length) (hvlen : pa.length = v0.length)
    (hnodup : pa.Nodup) (hdisj : ∀ a ∈ pa, a ∉ ga) :
    (s.velocity = none → v0 = zerosLike pa st)
    ∧ (sgdStep sqrtq s pa ga st).2.1 = ga
    ∧ ∃ w, (sgdStep sqrtq s pa ga st).1.velocity = some w
        ∧ w.length = pa.length
        ∧ ∀ i < pa.length,
          (w.getD i [] = if s.momentum = 0 then v0.getD i []
            else elemAdd (smul s.momentum (v0.getD i [])) (st.heap (ga.getD i 0)))
          ∧ (sgdStep sqrtq s pa ga st).2.2.heap (pa.getD i 0)
            = elemSub (st.heap (pa.getD i 0)) (smul s.lr
                (if s.momentum = 0 then st.heap (ga.getD i 0)
                 else if s.nesterov then
                   elemAdd (smul s.momentum (elemAdd (smul s.momentum (v0.getD i []))
                     (st.heap (ga.getD i 0)))) (st.heap (ga.getD i 0))
                 else elemAdd (smul s.momentum (v0.getD i []))
                   (st.heap (ga.getD i 0)))) := by
  have hwdneg : ¬ s.weight_decay > 0 := by rw [hwd]; exact lt_irrefl 0
  refine ⟨fun hnone => by rw [← hv0, hnone]; rfl, ?_⟩
  by_cases hm : s.momentum = 0
  · simp only [sgdStep, if_neg hwdneg, hclip, maybeClip, if_pos hm, hv0]
    exact ⟨by trivial, v0, by trivial, hvlen.symm, fun i hi =>
      ⟨rfl, sgdPlain_at s.lr pa ga st hnodup hdisj hlen i hi⟩⟩
  · simp only [sgdStep, if_neg hwdneg, hclip, maybeClip, if_neg hm, hv0]
    refine ⟨by trivial, (sgdMom s.lr s.momentum s.nesterov pa ga v0 st).1, by trivial,
      sgdMom_len s.lr s.momentum s.nesterov pa ga v0 st hlen hvlen, fun i hi => ?_⟩
    have h := sgdMom_at s.lr s.momentum s.nesterov pa ga v0 st hnodup hdisj hlen hvlen i hi
    exact ⟨h.1, h.2⟩

theorem adamUpd_frame (sqrtq : ℚ → ℚ) (lr b1 b2 eps : ℚ) (t : ℕ) :
    ∀ (pa ga : List ℕ) (ms vs : List Arr) (st : Store) (a : ℕ), a ∉ pa →
      (adamUpd sqrtq lr b1 b2 eps t pa ga ms vs st).2.2.heap a = st.heap a := by
  intro pa
  induction pa with
  | nil => intro ga ms vs st a _; rfl
  | cons p ps ih =>
      intro ga ms vs st a ha
      cases ga with
      | nil => rfl
      | cons g gs =>
          cases ms with
          | nil => rfl
          | cons m mrest =>
              cases vs with
              | nil => rfl
              | cons v vrest =>
                  have hap : a ≠ p := fun h => ha (h ▸ List.mem_cons_self p ps)
                  have has : a ∉ ps := fun h => ha (List.mem_cons_of_mem p h)
                  simp only [adamUpd]
                  rw [ih gs mrest vrest _ a has]
                  simp [writeH, Function.update_noteq hap]

theorem adamUpd_len (sqrtq : ℚ → ℚ) (lr b1 b2 eps : ℚ) (t : ℕ) :
    ∀ (pa ga : List ℕ) (ms vs : List Arr) (st : Store),
      pa.length = ga.length → pa.length = ms.length → pa.length = vs.length →
      (adamUpd sqrtq lr b1 b2 eps t pa ga ms vs st).1.length = pa.length
      ∧ (adamUpd sqrtq lr b1 b2 eps t pa ga ms vs st).2.1.length = pa.length := by
  intro pa
  induction pa with
  | nil => intro ga ms vs st _ _ _; exact ⟨rfl, rfl⟩
  | cons p ps ih =>
      intro ga ms vs st hlen hmlen hvlen
      cases ga with
      | nil => exact absurd hlen (by simp)
      | cons g gs =>
          cases ms with
          | nil => exact absurd hmlen (by simp)
          | cons m mrest =>
              cases vs with
              | nil => exact absurd hvlen (by simp)
              | cons v vrest =>
                  have h := ih gs mrest vrest
                    (writeH st p (elemSub (st.heap p)
                      (elemDiv (smul lr (divConst (elemAdd (smul b1 m)
                          (smul (1 - b1) (st.heap g))) (1 - b1 ^ t)))
                        ((divConst (elemAdd (smul b2 v) (smul (1 - b2)
                          (elemMul (st.heap g) (st.heap g)))) (1 - b2 ^ t)).map
                            (fun x => sqrtq x + eps)))))
                    (by simpa using hlen) (by simpa using hmlen) (by simpa using hvlen)
                  simp only [adamUpd, List.length_cons]
                  exact ⟨by rw [h.1], by rw [h.2]⟩

theorem adamUpd_at (sqrtq : ℚ → ℚ) (lr b1 b2 eps : ℚ) (t : ℕ) :
    ∀ (pa ga : List ℕ) (ms vs : List Arr) (st : Store), pa.Nodup →
      (∀ a ∈ pa, a ∉ ga) → pa.length = ga.length → pa.length = ms.length →
      pa.length = vs.length → ∀ i < pa.length,
      ((adamUpd sqrtq lr b1 b2 eps t pa ga ms vs st).1.getD i []
          = elemAdd (smul b1 (ms.getD i [])) (smul (1 - b1) (st.heap (ga.getD i 0))))
      ∧ ((adamUpd sqrtq lr b1 b2 eps t pa ga ms vs st).2.1.getD i []
          = elemAdd (smul b2 (vs.getD i [])) (smul (1 - b2)
              (elemMul (st.heap (ga.getD i 0)) (st.heap (ga.getD i 0)))))
      ∧ (adamUpd sqrtq lr b1 b2 eps t pa ga ms vs st).2.2.heap (pa.getD i 0)
          = elemSub (st.heap (pa.getD i 0))
              (elemDiv (smul lr (divConst (elemAdd (smul b1 (ms.getD i []))
                  (smul (1 - b1) (st.heap (ga.getD i 0)))) (1 - b1 ^ t)))
                ((divConst (elemAdd (smul b2 (vs.getD i [])) (smul (1 - b2)
                  (elemMul (st.heap (ga.getD i 0)) (st.heap (ga.getD i 0)))))
                    (1 - b2 ^ t)).map (fun x => sqrtq x + eps))) := by
  intro pa
  induction pa with
  | nil => intro ga ms vs st _ _ _ _ _ i hi; exact absurd hi (Nat.not_lt_zero i)
  | cons p ps ih =>
      intro ga ms vs st hnd hdisj hlen hmlen hvlen i hi
      cases ga with
      | nil => exact absurd hlen (by simp)
      | cons g gs =>
          cases ms with
          | nil => exact absurd hmlen (by simp)
          | cons m mrest =>
              cases vs with
              | nil => exact absurd hvlen (by simp)
              | cons v vrest =>
                  have hpns : p ∉ ps := (List.nodup_cons.mp hnd).1
                  have hpgs : p ∉ gs := fun h =>
                    hdisj p (List.mem_cons_self p ps) (List.mem_cons_of_mem g h)
                  cases i with
                  | zero =>
                      refine ⟨by simp [adamUpd], by simp [adamUpd], ?_⟩
                      simp only [adamUpd, List.getD_cons_zero]
                      rw [adamUpd_frame sqrtq lr b1 b2 eps t ps gs mrest vrest _ p hpns]
                      simp [writeH, Function.update_same]
                  | succ i =>
                      have hi' : i < ps.length := Nat.lt_of_succ_lt_succ hi
                      have hlen' : ps.length = gs.length := by simpa using hlen
                      have hmlen' : ps.length = mrest.length := by simpa using hmlen
                      have hvlen' : ps.length = vrest.length := by simpa using hvlen
                      simp only [adamUpd, List.getD_cons_succ]
                      have hrec := ih gs mrest vrest
                        (writeH st p (elemSub (st.heap p)
                          (elemDiv (smul lr (divConst (elemAdd (smul b1 m)
                              (smul (1 - b1) (st.heap g))) (1 - b1 ^ t)))
                            ((divConst (elemAdd (smul b2 v) (smul (1 - b2)
                              (elemMul (st.heap g) (st.heap g)))) (1 - b2 ^ t)).map
                                (fun x => sqrtq x + eps)))))
                        (List.nodup_cons.mp hnd).2
                        (fun a hams => fun hag =>
                          hdisj a (List.mem_cons_of_mem p hams) (List.mem_cons_of_mem g hag))
                        hlen' hmlen' hvlen' i hi'
                      have h1 : ps.getD i 0 ≠ p := fun h => hpns (h ▸ getD_mem 0 ps i hi')
                      have h2 : gs.getD i 0 ≠ p := fun h =>
                        hpgs (h ▸ getD_mem 0 gs i (hlen' ▸ hi'))
                      refine ⟨?_, ?_, ?_⟩
                      · rw [hrec.1]
                        simp only [writeH]
                        rw [Function.update_noteq h2]
                      · rw [hrec.2.1]
                        simp only [writeH]
                        rw [Function.update_noteq h2]
                      · rw [hrec.2.2]
                        simp only [writeH]
                        rw [Function.update_noteq h1, Function.update_noteq h2]

/-- C4: with zero weight decay and no clipping, `Adam.step` increments the
single shared step counter exactly once per call, updates the moment buffers
`m[k] := b1*m[k] + (1-b1)*g` and `v[k] := b2*v[k] + (1-b2)*g*g` (both
initialised to zeros on the first call), bias-corrects them by `1 - β^t`, and
updates each parameter in place by `params[k] -= lr*m_hat/(sqrt(v_hat)+eps)`. -/
theorem adam_step_spec (sqrtq : ℚ → ℚ) (s : AdamState) (pa ga : List ℕ)
    (st : Store) (m0 v0 : List Arr)
    (hm0 : s.m.getD (zerosLike pa st) = m0) (hv0 : s.v.getD (zerosLike pa st) = v0)
    (hwd : s.weight_decay = 0) (hclip : s.clip_grad_norm = none)
    (hlen : pa.length = ga.length) (hmlen : pa.length = m0.length)
    (hvlen : pa.length = v0.length)
    (hnodup : pa.Nodup) (hdisj : ∀ a ∈ pa, a ∉ ga) :
    (s.m = none → m0 = zerosLike pa st) ∧ (s.v = none → v0 = zerosLike pa st)
    ∧ (adamStep sqrtq s pa ga st).1.t = s.t + 1
    ∧ (adamStep sqrtq s pa ga st).2.1 = ga
    ∧ ∃ mw vw, (adamStep sqrtq s pa ga st).1.m = some mw
        ∧ (adamStep sqrtq s pa ga st).1.v = some vw
        ∧ mw.length = pa.length ∧ vw.length = pa.length
        ∧ ∀ i < pa.length,
          mw.getD i [] = elemAdd (smul s.b1 (m0.getD i []))
              (smul (1 - s.b1) (st.heap (ga.getD i 0)))
          ∧ vw.getD i [] = elemAdd (smul s.b2 (v0.getD i [])) (smul (1 - s.b2)
              (elemMul (st.heap (ga.getD i 0)) (st.heap (ga.getD i 0))))
          ∧ (adamStep sqrtq s pa ga st).2.2.heap (pa.getD i 0)
              = elemSub (st.heap (pa.getD i 0))
                  (elemDiv (smul s.lr (divConst (elemAdd (smul s.b1 (m0.getD i []))
                      (smul (1 - s.b1) (st.heap (ga.getD i 0)))) (1 - s.b1 ^ (s.t + 1))))
                    ((divConst (elemAdd (smul s.b2 (v0.getD i [])) (smul (1 - s.b2)
                      (elemMul (st.heap (ga.getD i 0)) (st.heap (ga.getD i 0)))))
                        (1 - s.b2 ^ (s.t + 1))).map (fun x => sqrtq x + s.eps))) := by
  have hwdneg : ¬ s.weight_decay > 0 := by rw [hwd]; exact lt_irrefl 0
  refine ⟨fun hnone => by rw [← hm0, hnone]; rfl,
    fun hnone => by rw [← hv0, hnone]; rfl, ?_⟩
  simp only [adamStep, if_neg hwdneg, hclip, maybeClip, hm0, hv0]
  have hL := adamUpd_len sqrtq s.lr s.b1 s.b2 s.eps (s.t + 1) pa ga m0 v0 st
    hlen hmlen hvlen
  refine ⟨by trivial, by trivial,
    (adamUpd sqrtq s.lr s.b1 s.b2 s.eps (s.t + 1) pa ga m0 v0 st).1,
    (adamUpd sqrtq s.lr s.b1 s.b2 s.eps (s.t + 1) pa ga m0 v0 st).2.1,
    by trivial, by trivial, hL.1, hL.2, fun i hi => ?_⟩
  exact adamUpd_at sqrtq s.lr s.b1 s.b2 s.eps (s.t + 1) pa ga m0 v0 st
    hnodup hdisj hlen hmlen hvlen i hi

/-- Witness for C4: one weight at address 0 with value `[1]`, one gradient at
address 1 with value `[2]`, `lr = 1/2`, betas `(1/2, 1/3)`, `eps = 1`,
first call (`t = 0`, no moment buffers yet). -/
theorem adam_step_spec_witness :
    ((⟨1/2, 1/2, 1/3, 1, 0, none, none, none, 0⟩ : AdamState).m.getD
        (zerosLike [0] ⟨fun a => if a = 0 then [1] else if a = 1 then [2] else [], 2⟩)
      = [[(0 : ℚ)]]) ∧
    (([0] : List ℕ).Nodup) ∧
    ((((⟨1/2, 1/2, 1/3, 1, 0, none, none, none, 0⟩ : AdamState).m = none →
        [[(0 : ℚ)]] = zerosLike [0]
          ⟨fun a => if a = 0 then [1] else if a = 1 then [2] else [], 2⟩))
    ∧ ((⟨1/2, 1/2, 1/3, 1, 0, none, none, none, 0⟩ : AdamState).v = none →
        [[(0 : ℚ)]] = zerosLike [0]
          ⟨fun a => if a = 0 then [1] else if a = 1 then [2] else [], 2⟩)
    ∧ (adamStep id ⟨1/2, 1/2, 1/3, 1, 0, none, none, none, 0⟩ [0] [1]
        ⟨fun a => if a = 0 then [1] else if a = 1 then [2] else [], 2⟩).1.t
      = (⟨1/2, 1/2, 1/3, 1, 0, none, none, none, 0⟩ : AdamState).t + 1
    ∧ (adamStep id ⟨1/2, 1/2, 1/3, 1, 0, none, none, none, 0⟩ [0] [1]
        ⟨fun a => if a = 0 then [1] else if a = 1 then [2] else [], 2⟩).2.1 = [1]
    ∧ ∃ mw vw, (adamStep id ⟨1/2, 1/2, 1/3, 1, 0, none, none, none, 0⟩ [0] [1]
          ⟨fun a => if a = 0 then [1] else if a = 1 then [2] else [], 2⟩).1.m = some mw
        ∧ (adamStep id ⟨1/2, 1/2, 1/3, 1, 0, none, none, none, 0⟩ [0] [1]
          ⟨fun a => if a = 0 then [1] else if a = 1 then [2] else [], 2⟩).1.v = some vw
        ∧ mw.length = ([0] : List ℕ).length ∧ vw.length = ([0] : List ℕ).length
        ∧ ∀ i < ([0] : List ℕ).length,
          mw.getD i [] = elemAdd (smul (1/2) ([[(0 : ℚ)]].getD i []))
              (smul (1 - 1/2)
                ((fun a => if a = 0 then [(1 : ℚ)] else if a = 1 then [2] else [])
                  (([1] : List ℕ).getD i 0)))
          ∧ vw.getD i [] = elemAdd (smul (1/3) ([[(0 : ℚ)]].getD i [])) (smul (1 - 1/3)
              (elemMul ((fun a => if a = 0 then [(1 : ℚ)] else if a = 1 then [2] else [])
                  (([1] : List ℕ).getD i 0))
                ((fun a => if a = 0 then [(1 : ℚ)] else if a = 1 then [2] else [])
                  (([1] : List ℕ).getD i 0))))
          ∧ (adamStep id ⟨1/2, 1/2, 1/3, 1, 0, none, none, none, 0⟩ [0] [1]
              ⟨fun a => if a = 0 then [1] else if a = 1 then [2] else [], 2⟩).2.2.heap
                (([0] : List ℕ).getD i 0)
              = elemSub ((fun a => if a = 0 then [(1 : ℚ)] else if a = 1 then [2] else [])
                  (([0] : List ℕ).getD i 0))
                  (elemDiv (smul (1/2) (divConst (elemAdd (smul (1/2) ([[(0 : ℚ)]].getD i []))
                      (smul (1 - 1/2)
                        ((fun a => if a = 0 then [(1 : ℚ)] else if a = 1 then [2] else [])
                          (([1] : List ℕ).getD i 0))))
                      (1 - (1/2 : ℚ) ^ ((0 : ℕ) + 1))))
                    ((divConst (elemAdd (smul (1/3) ([[(0 : ℚ)]].getD i []))
                      (smul (1 - 1/3)
                        (elemMul
                          ((fun a => if a = 0 then [(1 : ℚ)] else if a = 1 then [2] else [])
                            (([1] : List ℕ).getD i 0))
                          ((fun a => if a = 0 then [(1 : ℚ)] else if a = 1 then [2] else [])
                            (([1] : List ℕ).getD i 0)))))
                        (1 - (1/3 : ℚ) ^ ((0 : ℕ) + 1))).map (fun x => id x + 1)))) :=
  ⟨by decide, by decide,
    adam_step_spec id ⟨1/2, 1/2, 1/3, 1, 0, none, none, none, 0⟩ [0] [1]
      ⟨fun a => if a = 0 then [1] else if a = 1 then [2] else [], 2⟩
      [[(0 : ℚ)]] [[(0 : ℚ)]] (by decide) (by decide) rfl rfl rfl rfl rfl
      (by decide)
      (by intro a ha hb; simp at ha; subst ha; simp at hb)⟩

theorem allocWd_heap_lt (wd : ℚ) :
    ∀ (ga pa : List ℕ) (st : Store) (a : ℕ), a < st.next →
      ((allocWd wd ga pa st).2).heap a = st.heap a := by
  intro ga
  induction ga with
  | nil => intro pa st a _; rfl
  | cons g gs ih =>
      intro pa st a ha
      cases pa with
      | nil => rfl
      | cons p ps =>
          simp only [allocWd]
          rw [ih ps _ a (by simp; omega)]
          exact Function.update_noteq (by omega) _ _

theorem allocWd_fresh (wd : ℚ) :
    ∀ (ga pa : List ℕ) (st : Store) (b : ℕ), b ∈ (allocWd wd ga pa st).1 →
      st.next ≤ b := by
  intro ga
  induction ga with
  | nil => intro pa st b hb; exact absurd hb (List.not_mem_nil b)
  | cons g gs ih =>
      intro pa st b hb
      cases pa with
      | nil => exact absurd hb (List.not_mem_nil b)
      | cons p ps =>
          simp only [allocWd] at hb
          rcases List.mem_cons.mp hb with h | h
          · omega
          · have := ih ps _ b h
            simp at this
            omega

theorem allocWd_at (wd : ℚ) :
    ∀ (ga pa : List ℕ) (st : Store), (∀ a ∈ ga, a < st.next) →
      (∀ a ∈ pa, a < st.next) → ga.length = pa.length → ∀ i < ga.length,
      ((allocWd wd ga pa st).2).heap ((allocWd wd ga pa st).1.getD i 0)
        = elemAdd (st.heap (ga.getD i 0)) (smul wd (st.heap (pa.getD i 0))) := by
  intro ga
  induction ga with
  | nil => intro pa st _ _ _ i hi; exact absurd hi (Nat.not_lt_zero i)
  | cons g gs ih =>
      intro pa st hga hpa hlen i hi
      cases pa with
      | nil => exact absurd hlen (by simp)
      | cons p ps =>
          simp only [allocWd]
          cases i with
          | zero =>
              simp only [List.getD_cons_zero]
              rw [allocWd_heap_lt wd gs ps _ st.next (by simp)]
              simp [Function.update_same, hga g (List.mem_cons_self g gs),
                hpa p (List.mem_cons_self p ps), Function.update_noteq]
          | succ i =>
              have hi' : i < gs.length := Nat.lt_of_succ_lt_succ hi
              simp only [List.getD_cons_succ]
              rw [ih ps ⟨Function.update st.heap st.next
                  (elemAdd (st.heap g) (smul wd (st.heap p))), st.next + 1⟩
                (fun a hamem => by
                  simp only []
                  have := hga a (List.mem_cons_of_mem g hamem); omega)
                (fun a hamem => by
                  simp only []
                  have := hpa a (List.mem_cons_of_mem p hamem); omega)
                (by simpa using hlen) i hi']
              have h1 : gs.getD i 0 ≠ st.next := by
                have := hga (gs.getD i 0)
                  (List.mem_cons_of_mem g (getD_mem 0 gs i hi'))
                omega
              have h2 : ps.getD i 0 ≠ st.next := by
                have hlen' : gs.length = ps.length := by simpa using hlen
                have := hpa (ps.getD i 0)
                  (List.mem_cons_of_mem p (getD_mem 0 ps i (hlen' ▸ hi')))
                omega
              simp only []
              rw [Function.update_noteq h1, Function.update_noteq h2]

theorem scaleAll_frame (s : ℚ) :
    ∀ (ga : List ℕ) (st : Store) (a : ℕ), a ∉ ga →
      (scaleAll s ga st).heap a = st.heap a := by
  intro ga
  induction ga with
  | nil => intro st a _; rfl
  | cons g gs ih =>
      intro st a ha
      have hag : a ≠ g := fun h => ha (h ▸ List.mem_cons_self g gs)
      have has : a ∉ gs := fun h => ha (List.mem_cons_of_mem g h)
      simp only [scaleAll]
      rw [ih _ a has]
      simp [writeH, Function.update_noteq hag]

theorem maybeClip_frame (sqrtq : ℚ → ℚ) (clip : Option ℚ) (ga : List ℕ)
    (st : Store) (a : ℕ) (ha : a ∉ ga) :
    (maybeClip sqrtq clip ga st).heap a = st.heap a := by
  cases clip with
  | none => rfl
  | some c =>
      simp only [maybeClip]
      by_cases hc : sqrtq (clipTotal ga st) + 1 / 1000000000000 > c
      · rw [if_pos hc]
        exact scaleAll_frame _ ga st a ha
      · rw [if_neg hc]

/-- C10: with positive weight decay, both `SGD.step` and `Adam.step` leave the
arrays bound to the gradient dictionary at call entry with unchanged element
values: the weight-decay pass rebinds each gradient slot to a freshly
allocated array holding `grads[k] + weight_decay*params[k]`, and clipping and
the moment/parameter updates touch only those replacement arrays and the
parameter buffers, never the original gradient buffers. -/
theorem optimizer_weight_decay_frame (sqrtq : ℚ → ℚ) (sS : SGDState)
    (sA : AdamState) (pa ga : List ℕ) (st : Store)
    (hwdS : sS.weight_decay > 0) (hwdA : sA.weight_decay > 0)
    (hpalloc : ∀ a ∈ pa, a < st.next) (hgalloc : ∀ a ∈ ga, a < st.next)
    (hdisj : ∀ a ∈ ga, a ∉ pa) (hlen : ga.length = pa.length) :
    (∀ a ∈ ga, (sgdStep sqrtq sS pa ga st).2.2.heap a = st.heap a)
    ∧ (∀ a ∈ ga, (adamStep sqrtq sA pa ga st).2.2.heap a = st.heap a)
    ∧ (sgdStep sqrtq sS pa ga st).2.1 = (allocWd sS.weight_decay ga pa st).1
    ∧ (adamStep sqrtq sA pa ga st).2.1 = (allocWd sA.weight_decay ga pa st).1
    ∧ (∀ b ∈ (allocWd sS.weight_decay ga pa st).1, b ∉ ga)
    ∧ (∀ b ∈ (allocWd sA.weight_decay ga pa st).1, b ∉ ga)
    ∧ (∀ i < ga.length,
        ((allocWd sS.weight_decay ga pa st).2).heap
            ((allocWd sS.weight_decay ga pa st).1.getD i 0)
          = elemAdd (st.heap (ga.getD i 0))
              (smul sS.weight_decay (st.heap (pa.getD i 0))))
    ∧ (∀ i < ga.length,
        ((allocWd sA.weight_decay ga pa st).2).heap
            ((allocWd sA.weight_decay ga pa st).1.getD i 0)
          = elemAdd (st.heap (ga.getD i 0))
              (smul sA.weight_decay (st.heap (pa.getD i 0)))) := by
  have hfreshS : ∀ b ∈ (allocWd sS.weight_decay ga pa st).1, b ∉ ga := by
    intro b hb hbga
    have h1 := allocWd_fresh sS.weight_decay ga pa st b hb
    have h2 := hgalloc b hbga
    omega
  have hfreshA : ∀ b ∈ (allocWd sA.weight_decay ga pa st).1, b ∉ ga := by
    intro b hb hbga
    have h1 := allocWd_fresh sA.weight_decay ga pa st b hb
    have h2 := hgalloc b hbga
    omega
  have hframeS : ∀ a ∈ ga, (sgdStep sqrtq sS pa ga st).2.2.heap a = st.heap a := by
    intro a ha
    have hlt := hgalloc a ha
    have hnp := hdisj a ha
    have hng1 : a ∉ (allocWd sS.weight_decay ga pa st).1 := fun h => by
      have := allocWd_fresh sS.weight_decay ga pa st a h
      omega
    simp only [sgdStep, if_pos hwdS]
    by_cases hm : sS.momentum = 0
    · rw [if_pos hm]
      rw [sgdPlain_frame sS.lr pa _ _ a hnp,
        maybeClip_frame sqrtq sS.clip_grad_norm _ _ a hng1,
        allocWd_heap_lt sS.weight_decay ga pa st a hlt]
    · rw [if_neg hm]
      rw [sgdMom_frame sS.lr sS.momentum sS.nesterov pa _ _ _ a hnp,
        maybeClip_frame sqrtq sS.clip_grad_norm _ _ a hng1,
        allocWd_heap_lt sS.weight_decay ga pa st a hlt]
  have hframeA : ∀ a ∈ ga, (adamStep sqrtq sA pa ga st).2.2.heap a = st.heap a := by
    intro a ha
    have hlt := hgalloc a ha
    have hnp := hdisj a ha
    have hng1 : a ∉ (allocWd sA.weight_decay ga pa st).1 := fun h => by
      have := allocWd_fresh sA.weight_decay ga pa st a h
      omega
    simp only [adamStep, if_pos hwdA]
    rw [adamUpd_frame sqrtq sA.lr sA.b1 sA.b2 sA.eps (sA.t + 1) pa _ _ _ _ a hnp,
      maybeClip_frame sqrtq sA.clip_grad_norm _ _ a hng1,
      allocWd_heap_lt sA.weight_decay ga pa st a hlt]
  refine ⟨hframeS, hframeA, ?_, ?_, hfreshS, hfreshA,
    fun i hi => allocWd_at sS.weight_decay ga pa st hgalloc hpalloc hlen i hi,
    fun i hi => allocWd_at sA.weight_decay ga pa st hgalloc hpalloc hlen i hi⟩
  · simp only [sgdStep, if_pos hwdS]
    by_cases hm : sS.momentum = 0
    · rw [if_pos hm]
    · rw [if_neg hm]
  · simp only [adamStep, if_pos hwdA]

/-- Witness for C10: one weight at address 0, one gradient at address 1,
`weight_decay = 1` for both optimizers, clipping threshold `10`. -/
theorem optimizer_weight_decay_frame_witness :
    ((⟨1/2, 1/4, false, 1, some 10, none⟩ : SGDState).weight_decay > 0) ∧
    ((⟨1/2, 1/2, 1/3, 1, 1, some 10, none, none, 0⟩ : AdamState).weight_decay > 0) ∧
    (∀ a ∈ ([1] : List ℕ),
      (sgdStep id ⟨1/2, 1/4, false, 1, some 10, none⟩ [0] [1]
        ⟨fun a => if a = 0 then [1] else if a = 1 then [2] else [], 2⟩).2.2.heap a
      = (fun a => if a = 0 then [(1 : ℚ)] else if a = 1 then [2] else []) a)
    ∧ (∀ a ∈ ([1] : List ℕ),
      (adamStep id ⟨1/2, 1/2, 1/3, 1, 1, some 10, none, none, 0⟩ [0] [1]
        ⟨fun a => if a = 0 then [1] else if a = 1 then [2] else [], 2⟩).2.2.heap a
      = (fun a => if a = 0 then [(1 : ℚ)] else if a = 1 then [2] else []) a)
    ∧ (sgdStep id ⟨1/2, 1/4, false, 1, some 10, none⟩ [0] [1]
        ⟨fun a => if a = 0 then [1] else if a = 1 then [2] else [], 2⟩).2.1
      = (allocWd 1 [1] [0]
        ⟨fun a => if a = 0 then [1] else if a = 1 then [2] else [], 2⟩).1
    ∧ (adamStep id ⟨1/2, 1/2, 1/3, 1, 1, some 10, none, none, 0⟩ [0] [1]
        ⟨fun a => if a = 0 then [1] else if a = 1 then [2] else [], 2⟩).2.1
      = (allocWd 1 [1] [0]
        ⟨fun a => if a = 0 then [1] else if a = 1 then [2] else [], 2⟩).1
    ∧ (∀ b ∈ (allocWd 1 [1] [0]
        ⟨fun a => if a = 0 then [1] else if a = 1 then [2] else [], 2⟩).1,
        b ∉ ([1] : List ℕ))
    ∧ (∀ b ∈ (allocWd 1 [1] [0]
        ⟨fun a => if a = 0 then [1] else if a = 1 then [2] else [], 2⟩).1,
        b ∉ ([1] : List ℕ))
    ∧ (∀ i < ([1] : List ℕ).length,
        ((allocWd 1 [1] [0]
            ⟨fun a => if a = 0 then [1] else if a = 1 then [2] else [], 2⟩).2).heap
            ((allocWd 1 [1] [0]
              ⟨fun a => if a = 0 then [1] else if a = 1 then [2] else [], 2⟩).1.getD i 0)
          = elemAdd ((fun a => if a = 0 then [(1 : ℚ)] else if a = 1 then [2] else [])
              (([1] : List ℕ).getD i 0))
              (smul 1 ((fun a => if a = 0 then [(1 : ℚ)] else if a = 1 then [2] else [])
                (([0] : List ℕ).getD i 0))))
    ∧ (∀ i < ([1] : List ℕ).length,
        ((allocWd 1 [1] [0]
            ⟨fun a => if a = 0 then [1] else if a = 1 then [2] else [], 2⟩).2).heap
            ((allocWd 1 [1] [0]
              ⟨fun a => if a = 0 then [1] else if a = 1 then [2] else [], 2⟩).1.getD i 0)
          = elemAdd ((fun a => if a = 0 then [(1 : ℚ)] else if a = 1 then [2] else [])
              (([1] : List ℕ).getD i 0))
              (smul 1 ((fun a => if a = 0 then [(1 : ℚ)] else if a = 1 then [2] else [])
                (([0] : List ℕ).getD i 0)))) :=
  ⟨by norm_num, by norm_num,
    optimizer_weight_decay_frame id ⟨1/2, 1/4, false, 1, some 10, none⟩
      ⟨1/2, 1/2, 1/3, 1, 1, some 10, none, none, 0⟩ [0] [1]
      ⟨fun a => if a = 0 then [1] else if a = 1 then [2] else [], 2⟩
      (by norm_num) (by norm_num) (by decide) (by decide)
      (by intro a ha hb; simp at ha; subst ha; simp at hb) rfl⟩

/-- Witness for C3: one weight at address 0 with value `[1]`, one gradient at
address 1 with value `[2]`, `lr = 1/2`, momentum `1/4`, Nesterov off. -/
theorem sgd_step_spec_witness :
    ((⟨1/2, 1/4, false, 0, none, none⟩ : SGDState).velocity.getD
        (zerosLike [0] ⟨fun a => if a = 0 then [1] else if a = 1 then [2] else [], 2⟩)
      = [[(0 : ℚ)]]) ∧
    ((⟨1/2, 1/4, false, 0, none, none⟩ : SGDState).weight_decay = 0) ∧
    (([0] : List ℕ).Nodup) ∧
    (((⟨1/2, 1/4, false, 0, none, none⟩ : SGDState).velocity = none →
        [[(0 : ℚ)]] = zerosLike [0]
          ⟨fun a => if a = 0 then [1] else if a = 1 then [2] else [], 2⟩)
    ∧ (sgdStep id ⟨1/2, 1/4, false, 0, none, none⟩ [0] [1]
        ⟨fun a => if a = 0 then [1] else if a = 1 then [2] else [], 2⟩).2.1 = [1]
    ∧ ∃ w, (sgdStep id ⟨1/2, 1/4, false, 0, none, none⟩ [0] [1]
          ⟨fun a => if a = 0 then [1] else if a = 1 then [2] else [], 2⟩).1.velocity
            = some w
        ∧ w.length = ([0] : List ℕ).length
        ∧ ∀ i < ([0] : List ℕ).length,
          (w.getD i [] = if (1/4 : ℚ) = 0 then [[(0 : ℚ)]].getD i []
            else elemAdd (smul (1/4) ([[(0 : ℚ)]].getD i []))
              ((fun a => if a = 0 then [(1 : ℚ)] else if a = 1 then [2] else [])
                (([1] : List ℕ).getD i 0)))
          ∧ (sgdStep id ⟨1/2, 1/4, false, 0, none, none⟩ [0] [1]
              ⟨fun a => if a = 0 then [1] else if a = 1 then [2] else [], 2⟩).2.2.heap
                (([0] : List ℕ).getD i 0)
            = elemSub ((fun a => if a = 0 then [(1 : ℚ)] else if a = 1 then [2] else [])
                (([0] : List ℕ).getD i 0)) (smul (1/2)
                (if (1/4 : ℚ) = 0 then
                  (fun a => if a = 0 then [(1 : ℚ)] else if a = 1 then [2] else [])
                    (([1] : List ℕ).getD i 0)
                 else if false then
                   elemAdd (smul (1/4) (elemAdd (smul (1/4) ([[(0 : ℚ)]].getD i []))
                     ((fun a => if a = 0 then [(1 : ℚ)] else if a = 1 then [2] else [])
                       (([1] : List ℕ).getD i 0))))
                     ((fun a => if a = 0 then [(1 : ℚ)] else if a = 1 then [2] else [])
                       (([1] : List ℕ).getD i 0))
                 else elemAdd (smul (1/4) ([[(0 : ℚ)]].getD i []))
                   ((fun a => if a = 0 then [(1 : ℚ)] else if a = 1 then [2] else [])
                     (([1] : List ℕ).getD i 0))))) :=
  ⟨by decide, by decide, by decide,
    sgd_step_spec id ⟨1/2, 1/4, false, 0, none, none⟩ [0] [1]
      ⟨fun a => if a = 0 then [1] else if a = 1 then [2] else [], 2⟩ [[(0 : ℚ)]]
      (by decide) rfl rfl rfl (by decide) (by decide)
      (by intro a ha hb; simp at ha; subst ha; simp at hb)⟩

end Optim

/-! ### Lemmas and theorems for the layer claims -/

namespace Layers

/-- C5: for a 4D input with the layer's `in_channels` whose computed output
dimension `(H + 2p - KH)//s + 1` (or the width analogue) is non-positive,
`Conv2D.forward` raises the configuration error and returns before the im2col
transform or any matrix computation: the forward cache is exactly as it was
before the call (only the training flag may have been overridden). -/
theorem conv2d_forward_invalid_output (l : Conv2D) (tr : Option Bool) (x : Tensor4)
    (hC : x.dims.2.1 = l.in_channels)
    (hbad : ((x.dims.2.2.1 : ℤ) + 2 * l.padding - l.KH).fdiv l.stride + 1 ≤ 0
          ∨ ((x.dims.2.2.2 : ℤ) + 2 * l.padding - l.KW).fdiv l.stride + 1 ≤ 0) :
    (convForward l tr x).1 = Except.error "Invalid output size"
    ∧ (convForward l tr x).2.cache = l.cache := by
  have h1 : calcOutHW l x.dims.2.2.1 x.dims.2.2.2
      = Except.error "Invalid output size" := by
    simp only [calcOutHW]
    rw [if_pos hbad]
  have hne : ¬ x.dims.2.1 ≠ l.in_channels := by simp [hC]
  cases tr with
  | none => exact ⟨by simp only [convForward, if_neg hne, h1],
      by simp only [convForward, if_neg hne, h1]⟩
  | some t => exact ⟨by simp only [convForward, if_neg hne, h1],
      by simp only [convForward, if_neg hne, h1]⟩

/-- Witness for C5: a `5×5` kernel, stride 1, no padding, on a `2×2` input:
`H_out = (2 - 5)//1 + 1 = -2 ≤ 0`. -/
theorem conv2d_forward_invalid_output_witness :
    ((⟨(1, 1, 2, 2), fun _ _ _ _ => 0⟩ : Tensor4).dims.2.1
        = (convInit 1 1 5 5 1 0 true (fun _ _ _ _ => 0)).in_channels) ∧
    ((((⟨(1, 1, 2, 2), fun _ _ _ _ => 0⟩ : Tensor4).dims.2.2.1 : ℤ)
        + 2 * (convInit 1 1 5 5 1 0 true (fun _ _ _ _ => 0)).padding
        - (convInit 1 1 5 5 1 0 true (fun _ _ _ _ => 0)).KH).fdiv
          (convInit 1 1 5 5 1 0 true (fun _ _ _ _ => 0)).stride + 1 ≤ 0) ∧
    ((convForward (convInit 1 1 5 5 1 0 true (fun _ _ _ _ => 0)) none
        ⟨(1, 1, 2, 2), fun _ _ _ _ => 0⟩).1 = Except.error "Invalid output size"
    ∧ (convForward (convInit 1 1 5 5 1 0 true (fun _ _ _ _ => 0)) none
        ⟨(1, 1, 2, 2), fun _ _ _ _ => 0⟩).2.cache
      = (convInit 1 1 5 5 1 0 true (fun _ _ _ _ => 0)).cache) :=
  ⟨rfl, by decide,
    conv2d_forward_invalid_output (convInit 1 1 5 5 1 0 true (fun _ _ _ _ => 0))
      none ⟨(1, 1, 2, 2), fun _ _ _ _ => 0⟩ rfl (Or.inl (by decide))⟩

/-- Counterexample to C6 as stated: a `BatchNorm2D` layer that ran one
training-mode forward and was then switched to eval mode is in eval mode when
`backward` is called, yet `backward` succeeds — the source checks only
whether the cache fields are populated, and neither `eval()` nor an eval-mode
forward clears the cache left by an earlier training-mode forward. -/
theorem bn_eval_backward_succeeds :
    ((bnEval (bnForward id (bnInit 1 1 (9/10)) none
        ⟨(1, 1, 1, 1), fun _ _ _ _ => 1⟩).2).training = false)
    ∧ isOkE (bnBackward
        (bnEval (bnForward id (bnInit 1 1 (9/10)) none
          ⟨(1, 1, 1, 1), fun _ _ _ _ => 1⟩).2)
        (1, 1, 1, 1) (fun _ _ _ _ => 1)) = true :=
  ⟨rfl, rfl⟩

/-- C6 (amended): `BatchNorm2D.backward` raises the fatal state error exactly
when the forward cache is absent.  A freshly constructed layer has no cache,
`eval()` does not touch the cache, and an eval-mode forward call leaves the
cache unchanged (it computes and caches no statistics) — so a layer that has
never run a training-mode forward raises in eval mode; but a cache left by an
earlier training-mode forward is still consumed after switching to eval. -/
theorem bn_backward_state_error (sqrtq : ℚ → ℚ) (l : BatchNorm2D)
    (C : ℕ) (eps mom : ℚ) (gdims : ℕ × ℕ × ℕ × ℕ)
    (grad : ℕ → ℕ → ℕ → ℕ → ℚ) (x : Tensor4) :
    (l.cache = none → bnBackward l gdims grad
      = Except.error "BatchNorm2D.backward called before forward in training mode.")
    ∧ (∀ c, l.cache = some c → isOkE (bnBackward l gdims grad) = true)
    ∧ (bnInit C eps mom).cache = none
    ∧ (bnEval l).cache = l.cache
    ∧ (l.training = false → (bnForward sqrtq l none x).2.cache = l.cache) := by
  refine ⟨fun h => by simp only [bnBackward, h],
    fun c hc => by simp only [bnBackward, hc, isOkE],
    rfl, rfl, fun h => ?_⟩
  simp only [bnForward]
  by_cases hC : x.dims.2.1 ≠ l.C
  · rw [if_pos hC]
  · rw [if_neg hC, if_neg (by rw [h]; exact Bool.false_ne_true)]

/-- Witness for C6's amended theorem: a fresh `BatchNorm2D` over one channel,
in eval mode. -/
theorem bn_backward_state_error_witness :
    ((bnEval (bnInit 1 1 (9/10))).cache = none) ∧
    ((bnBackward (bnEval (bnInit 1 1 (9/10))) (1, 1, 1, 1) (fun _ _ _ _ => 1)
      = Except.error "BatchNorm2D.backward called before forward in training mode.")
    ∧ (bnInit 2 1 (9/10)).cache = none
    ∧ (bnEval (bnEval (bnInit 1 1 (9/10)))).cache = (bnEval (bnInit 1 1 (9/10))).cache
    ∧ (bnForward id (bnEval (bnInit 1 1 (9/10))) none
        ⟨(1, 1, 1, 1), fun _ _ _ _ => 1⟩).2.cache
      = (bnEval (bnInit 1 1 (9/10))).cache) := by
  have h := bn_backward_state_error id (bnEval (bnInit 1 1 (9/10))) 2 1 (9/10)
    (1, 1, 1, 1) (fun _ _ _ _ => 1) ⟨(1, 1, 1, 1), fun _ _ _ _ => 1⟩
  exact ⟨rfl, h.1 rfl, h.2.2.1, h.2.2.2.1, h.2.2.2.2 rfl⟩

/-- Counterexample to C7 as stated: `Dropout.backward` on a freshly
constructed layer (no preceding forward, hence no cached mask) does not raise
a state error — it returns the upstream gradient unchanged. -/
theorem dropout_fresh_backward_identity :
    dropoutBackward (dropoutInit (1/2)) (fun i : ℕ => (i : ℚ))
      = Except.ok (fun i : ℕ => (i : ℚ)) := rfl

/-- C7 (amended): calling `backward` on a freshly constructed layer with no
preceding `forward` raises a state error for Dense, Conv2D, MaxPool2D,
AvgPool2D, BatchNorm2D, ReLU, LeakyReLU, Tanh and Softmax; `Dropout` is the
exception — its backward with no cached mask is the identity on the upstream
gradient rather than an error. -/
theorem fresh_backward_state_error
    (ic oc KH KW stride pad : ℕ) (bias : Bool) (W4 : ℕ → ℕ → ℕ → ℕ → ℚ)
    (C : ℕ) (eps mom : ℚ) (inf outf : ℕ) (W2 : ℕ → ℕ → ℚ)
    (pKH pKW : ℕ) (pstride : Option ℕ) (slope p : ℚ) (Cs : ℕ)
    (g4 : ℕ → ℕ → ℕ → ℕ → ℚ) (g2 : ℕ → ℕ → ℚ) (g1 : ℕ → ℚ)
    (gdims : ℕ × ℕ × ℕ × ℕ) :
    (∃ e, denseBackward (denseInit inf outf bias W2) g2 = Except.error e)
    ∧ (∃ e, convBackward (convInit ic oc KH KW stride pad bias W4) g4
        = Except.error e)
    ∧ (∃ e, maxPoolBackward (maxPoolInit pKH pKW pstride) gdims g4
        = Except.error e)
    ∧ (∃ e, avgPoolBackward (avgPoolInit pKH pKW pstride) gdims g4
        = Except.error e)
    ∧ (∃ e, bnBackward (bnInit C eps mom) gdims g4 = Except.error e)
    ∧ (∃ e, reluBackward reluInit g1 = Except.error e)
    ∧ (∃ e, leakyReluBackward (leakyReluInit slope) g1 = Except.error e)
    ∧ (∃ e, tanhBackward tanhInit g1 = Except.error e)
    ∧ (∃ e, softmaxBackward Cs softmaxInit g2 = Except.error e)
    ∧ dropoutBackward (dropoutInit p) g1 = Except.ok g1 :=
  ⟨⟨_, rfl⟩, ⟨_, rfl⟩, ⟨_, rfl⟩, ⟨_, rfl⟩, ⟨_, rfl⟩, ⟨_, rfl⟩, ⟨_, rfl⟩,
    ⟨_, rfl⟩, ⟨_, rfl⟩, rfl⟩

end Layers

/-! ### Lemmas and theorems for the max_norm claim -/

namespace Reg

theorem sumsq_nonneg (v : List ℝ) : 0 ≤ (v.map fun x => x * x).sum := by
  refine List.sum_nonneg fun y hy => ?_
  obtain ⟨x, _, rfl⟩ := List.mem_map.mp hy
  exact mul_self_nonneg x

theorem normL2_nonneg (v : List ℝ) : 0 ≤ normL2 v := Real.sqrt_nonneg _

theorem normL2_scale (v : List ℝ) (s : ℝ) (hs : 0 ≤ s) :
    normL2 (v.map fun x => x * s) = normL2 v * s := by
  unfold normL2
  rw [List.map_map]
  have h1 : ((fun x => x * x) ∘ fun x : ℝ => x * s) = fun x : ℝ => x * x * (s * s) := by
    funext x; simp only [Function.comp]; ring
  rw [h1]
  have h2 : (v.map fun x : ℝ => x * x * (s * s)).sum
      = (v.map fun x : ℝ => x * x).sum * (s * s) := by
    induction v with
    | nil => simp
    | cons a t ih => simp [ih]; ring
  rw [h2, Real.sqrt_mul (sumsq_nonneg v), Real.sqrt_mul_self hs]

theorem maxNormGo_frame (mv : ℝ) (ex : List (List Char)) (dict : List Char → ℕ) :
    ∀ (keys : List (List Char)) (h : ℕ → List ℝ) (a : ℕ),
      (∀ k ∈ keys, dict k ≠ a) → maxNormGo mv ex dict keys h a = h a := by
  intro keys
  induction keys with
  | nil => intro h a _; rfl
  | cons k ks ih =>
      intro h a hna
      simp only [maxNormGo]
      rw [ih _ a fun q hq => hna q (List.mem_cons_of_mem k hq)]
      by_cases he : excludeName k ex
      · rw [if_pos he]
      · rw [if_neg he]
        by_cases hc : normL2 (h (dict k)) > mv ∧ normL2 (h (dict k)) > 0
        · rw [if_pos hc, Function.update_noteq (hna k (List.mem_cons_self k ks)).symm]
        · rw [if_neg hc]

theorem maxNormGo_key (mv : ℝ) (ex : List (List Char)) (dict : List Char → ℕ)
    (k : List Char) :
    ∀ (keys : List (List Char)) (h : ℕ → List ℝ), k ∈ keys → keys.Nodup →
      (∀ a ∈ keys, dict a = dict k → a = k) →
      maxNormGo mv ex dict keys h (dict k)
        = (if excludeName k ex then h (dict k)
           else if normL2 (h (dict k)) > mv ∧ normL2 (h (dict k)) > 0 then
             (h (dict k)).map fun x => x * (mv / normL2 (h (dict k)))
           else h (dict k)) := by
  intro keys
  induction keys with
  | nil => intro h hk _ _; exact absurd hk (List.not_mem_nil k)
  | cons q qs ih =>
      intro h hk hnd halias
      rcases List.mem_cons.mp hk with hqk | hks
      · subst hqk
        have hnotin : k ∉ qs := (List.nodup_cons.mp hnd).1
        have hframe : ∀ a ∈ qs, dict a ≠ dict k := fun a ha hda => by
          exact hnotin ((halias a (List.mem_cons_of_mem k ha) hda) ▸ ha)
        simp only [maxNormGo]
        rw [maxNormGo_frame mv ex dict qs _ (dict k) hframe]
        by_cases he : excludeName k ex
        · rw [if_pos he, if_pos he]
        · rw [if_neg he, if_neg he]
          by_cases hc : normL2 (h (dict k)) > mv ∧ normL2 (h (dict k)) > 0
          · rw [if_pos hc, if_pos hc, Function.update_same]
          · rw [if_neg hc, if_neg hc]
      · have hqk : q ≠ k := fun hqeq => (List.nodup_cons.mp hnd).1 (hqeq ▸ hks)
        have hdq : dict q ≠ dict k := fun hdd =>
          hqk (halias q (List.mem_cons_self q qs) hdd)
        simp only [maxNormGo]
        have hsame : (if excludeName q ex then h
            else if normL2 (h (dict q)) > mv ∧ normL2 (h (dict q)) > 0 then
              Function.update h (dict q)
                ((h (dict q)).map fun x => x * (mv / normL2 (h (dict q))))
            else h) (dict k) = h (dict k) := by
          by_cases he : excludeName q ex
          · rw [if_pos he]
          · rw [if_neg he]
            by_cases hc : normL2 (h (dict q)) > mv ∧ normL2 (h (dict q)) > 0
            · rw [if_pos hc, Function.update_noteq hdq.symm]
            · rw [if_neg hc]
        rw [ih _ hks (List.nodup_cons.mp hnd).2
          (fun a ha hda => halias a (List.mem_cons_of_mem q ha) hda), hsame]

/-- C8: for a key containing none of the excluded substrings whose array has
L2 norm strictly above `max_value > 0`, `max_norm` rescales the array *at its
existing address* (the dictionary is not an output of the operation: slots
are never rebound) so that its norm becomes exactly `max_value`; arrays with
norm at most `max_value`, and excluded keys, are left unchanged. -/
theorem max_norm_spec (keys : List (List Char)) (dict : List Char → ℕ)
    (heap : ℕ → List ℝ) (mv : ℝ) (k : List Char)
    (hk : k ∈ keys) (hmv : 0 < mv) (hnd : keys.Nodup)
    (halias : ∀ a ∈ keys, dict a = dict k → a = k) :
    (excludeName k defaultExclude = false → normL2 (heap (dict k)) > mv →
      maxNorm keys dict heap mv defaultExclude (dict k)
          = (heap (dict k)).map (fun x => x * (mv / normL2 (heap (dict k))))
        ∧ normL2 (maxNorm keys dict heap mv defaultExclude (dict k)) = mv)
    ∧ (normL2 (heap (dict k)) ≤ mv →
        maxNorm keys dict heap mv defaultExclude (dict k) = heap (dict k))
    ∧ (excludeName k defaultExclude = true →
        maxNorm keys dict heap mv defaultExclude (dict k) = heap (dict k)) := by
  have hmain := maxNormGo_key mv defaultExclude dict k keys heap hk hnd halias
  refine ⟨fun hex hnorm => ?_, fun hle => ?_, fun hex => ?_⟩
  · have hpos : normL2 (heap (dict k)) > 0 := lt_trans hmv hnorm
    have hval : maxNorm keys dict heap mv defaultExclude (dict k)
        = (heap (dict k)).map fun x => x * (mv / normL2 (heap (dict k))) := by
      rw [maxNorm, hmain, if_neg (by rw [hex]; exact Bool.false_ne_true),
        if_pos ⟨hnorm, hpos⟩]
    refine ⟨hval, ?_⟩
    rw [hval, normL2_scale _ _ (le_of_lt (div_pos hmv hpos)),
      mul_div_cancel₀ mv (ne_of_gt hpos)]
  · rw [maxNorm, hmain]
    by_cases he : excludeName k defaultExclude
    · rw [if_pos he]
    · rw [if_neg he, if_neg (fun hc => absurd hle (not_le.mpr hc.1))]
  · rw [maxNorm, hmain, if_pos hex]

/-- Witness for C8, matching the spec's example: a parameter `[3, 4]` with L2
norm 5 and `max_value = 2`; after `max_norm` the norm is exactly 2. -/
theorem max_norm_spec_witness :
    ((['w'] : List Char) ∈ [(['w'] : List Char)] ∧ (0 : ℝ) < 2
      ∧ excludeName ['w'] defaultExclude = false
      ∧ normL2 [(3 : ℝ), 4] > 2) ∧
    (maxNorm [['w']] (fun _ => 0) (fun a => if a = 0 then [3, 4] else []) 2
          defaultExclude 0
        = ([(3 : ℝ), 4]).map (fun x => x * (2 / normL2 [(3 : ℝ), 4]))
      ∧ normL2 (maxNorm [['w']] (fun _ => 0)
          (fun a => if a = 0 then [3, 4] else []) 2 defaultExclude 0) = 2) := by
  have hnorm : normL2 [(3 : ℝ), 4] = 5 := by
    unfold normL2
    norm_num
    rw [show (25 : ℝ) = 5 ^ 2 by norm_num, Real.sqrt_sq (by norm_num)]
  have h := max_norm_spec [['w']] (fun _ => 0)
    (fun a => if a = 0 then [3, 4] else []) 2 ['w']
    (List.mem_singleton.mpr rfl) (by norm_num) (List.nodup_singleton _)
    (fun a ha _ => List.mem_singleton.mp ha)
  have hgt : normL2 [(3 : ℝ), 4] > 2 := by rw [hnorm]; norm_num
  exact ⟨⟨List.mem_singleton.mpr rfl, by norm_num, by decide, hgt⟩,
    h.1 (by decide) hgt⟩

end Reg

/-! ### Lemmas and theorems for the Sequential key claim -/

namespace Model

theorem digitChar_ne_dot (d : ℕ) (h : d < 10) : digitChar d ≠ ('.' : Char) := by
  interval_cases d <;> decide

theorem digitChar_toNat (d : ℕ) (h : d < 10) : (digitChar d).toNat = 48 + d := by
  interval_cases d <;> decide

theorem natStr_no_dot (n : ℕ) : ('.' : Char) ∉ natStr n := by
  induction n using Nat.strong_induction_on with
  | _ n ih =>
      rw [natStr]
      by_cases h : n < 10
      · rw [if_pos h]
        intro hmem
        exact digitChar_ne_dot n h (List.mem_singleton.mp hmem).symm
      · rw [if_neg h]
        intro hmem
        rcases List.mem_append.mp hmem with h1 | h2
        · exact ih (n / 10) (Nat.div_lt_self (by omega) (by omega)) h1
        · exact digitChar_ne_dot (n % 10) (Nat.mod_lt n (by omega))
            (List.mem_singleton.mp h2).symm

/-- The value of a digit string (left fold), inverse to `natStr`. -/
def valStr (l : List Char) : ℕ :=
  l.foldl (fun acc c => 10 * acc + (c.toNat - 48)) 0

theorem valStr_append_digit (l : List Char) (c : Char) :
    valStr (l ++ [c]) = 10 * valStr l + (c.toNat - 48) := by
  unfold valStr
  rw [List.foldl_append]
  rfl

theorem valStr_natStr (n : ℕ) : valStr (natStr n) = n := by
  induction n using Nat.strong_induction_on with
  | _ n ih =>
      rw [natStr]
      by_cases h : n < 10
      · rw [if_pos h]
        show 10 * 0 + ((digitChar n).toNat - 48) = n
        rw [digitChar_toNat n h]
        omega
      · rw [if_neg h, valStr_append_digit,
          ih (n / 10) (Nat.div_lt_self (by omega) (by omega)),
          digitChar_toNat (n % 10) (Nat.mod_lt n (by omega))]
        omega

theorem natStr_injective (a b : ℕ) (h : natStr a = natStr b) : a = b := by
  rw [← valStr_natStr a, ← valStr_natStr b, h]

theorem split_at_dot :
    ∀ (a b u v : List Char), ('.' : Char) ∉ a → ('.' : Char) ∉ b →
      a ++ '.' :: u = b ++ '.' :: v → a = b ∧ u = v := by
  intro a
  induction a with
  | nil =>
      intro b u v _ hb heq
      cases b with
      | nil =>
          simp only [List.nil_append] at heq
          exact ⟨rfl, List.tail_eq_of_cons_eq heq⟩
      | cons bh bt =>
          simp only [List.nil_append, List.cons_append] at heq
          exact absurd ((List.head_eq_of_cons_eq heq) ▸ List.mem_cons_self bh bt) hb
  | cons ah at' ih =>
      intro b u v ha hb heq
      cases b with
      | nil =>
          simp only [List.cons_append, List.nil_append] at heq
          exact absurd ((List.head_eq_of_cons_eq heq).symm ▸
            List.mem_cons_self ah at') ha
      | cons bh bt =>
          simp only [List.cons_append] at heq
          have hh := List.head_eq_of_cons_eq heq
          have ht := List.tail_eq_of_cons_eq heq
          have hrec := ih bt u v (fun hm => ha (List.mem_cons_of_mem ah hm))
            (fun hm => hb (List.mem_cons_of_mem bh hm)) ht
          exact ⟨by rw [hh, hrec.1], hrec.2⟩

theorem className_no_dot (L : LayerKind) : ('.' : Char) ∉ className L := by
  cases L with
  | dense b => show ('.' : Char) ∉ ['D', 'e', 'n', 's', 'e']; decide
  | conv2d b => show ('.' : Char) ∉ ['C', 'o', 'n', 'v', '2', 'D']; decide
  | maxPool => decide
  | avgPool => decide
  | batchNorm => decide
  | dropout => decide
  | relu => decide
  | leakyRelu => decide
  | tanhL => decide
  | softmax => decide

theorem paramNames_nodup (L : LayerKind) : (paramNames L).Nodup := by
  cases L with
  | dense b => cases b <;> decide
  | conv2d b => cases b <;> decide
  | maxPool => decide
  | avgPool => decide
  | batchNorm => decide
  | dropout => decide
  | relu => decide
  | leakyRelu => decide
  | tanhL => decide
  | softmax => decide

theorem qualKey_inj (i j : ℕ) (Li Lj : LayerKind) (ki kj : List Char)
    (heq : qualKey i (className Li) ki = qualKey j (className Lj) kj) :
    i = j ∧ ki = kj := by
  unfold qualKey at heq
  have h1 := split_at_dot (natStr i) (natStr j) (className Li ++ '.' :: ki)
    (className Lj ++ '.' :: kj) (natStr_no_dot i) (natStr_no_dot j) heq
  have h2 := split_at_dot (className Li) (className Lj) ki kj
    (className_no_dot Li) (className_no_dot Lj) h1.2
  exact ⟨natStr_injective i j h1.1, h2.2⟩

/-- C9: in a Sequential model, the composite key
`layer-index + "." + layer-class-name + "." + local-parameter-name` is
injective on (layer position, local parameter name) pairs — class names are
dot-free and the decimal index is recovered as the maximal dot-free prefix —
so the key list of `params()`/`grads()` has no duplicates and the union of
parameters across the stack loses no entry. -/
theorem sequential_keys_unique (ls : List LayerKind) (hne : ls ≠ [])
    (i j : ℕ) (Li Lj : LayerKind) (ki kj : List Char)
    (hki : ki ∈ paramNames Li) (hkj : kj ∈ paramNames Lj)
    (heq : qualKey i (className Li) ki = qualKey j (className Lj) kj) :
    (i = j ∧ ki = kj) ∧ (seqKeys ls).Nodup := by
  refine ⟨qualKey_inj i j Li Lj ki kj heq, ?_⟩
  rw [seqKeys, List.nodup_flatMap]
  constructor
  · intro p _
    refine List.Nodup.map_on ?_ (paramNames_nodup p.2)
    intro a _ b _ hab
    exact (qualKey_inj p.1 p.1 p.2 p.2 a b hab).2
  · have henum : ls.enum.Pairwise fun p q => p.1 ≠ q.1 :=
      List.pairwise_map.mp (List.nodup_enum_map_fst ls)
    refine henum.imp ?_
    intro p q hpq
    intro key hkp hkq
    obtain ⟨a, _, rfl⟩ := List.mem_map.mp hkp
    obtain ⟨b, _, hba⟩ := List.mem_map.mp hkq
    exact hpq (qualKey_inj p.1 q.1 p.2 q.2 a b hba.symm).1

/-- Witness for C9: a two-layer stack `[Conv2D(bias), Dense(bias)]`; the
parameter keys are pairwise distinct, and equal keys at positions 0 and 1
force equal position and local name. -/
theorem sequential_keys_unique_witness :
    (([LayerKind.conv2d true, LayerKind.dense true] : List LayerKind) ≠ []
      ∧ (['W'] : List Char) ∈ paramNames (LayerKind.conv2d true)
      ∧ qualKey 0 (className (LayerKind.conv2d true)) ['W']
          = qualKey 0 (className (LayerKind.conv2d true)) ['W']) ∧
    (((0 : ℕ) = 0 ∧ (['W'] : List Char) = ['W'])
      ∧ (seqKeys [LayerKind.conv2d true, LayerKind.dense true]).Nodup) :=
  ⟨⟨List.cons_ne_nil _ _, by decide, rfl⟩,
    sequential_keys_unique [LayerKind.conv2d true, LayerKind.dense true]
      (List.cons_ne_nil _ _) 0 0 (LayerKind.conv2d true) (LayerKind.conv2d true)
      ['W'] ['W'] (by decide) (by decide) rfl⟩

end Model

end Engine
